import Mathlib

/-!
# go-leetcode: the scaffolding pipeline of `cmd/question.go`

A shallow embedding of the pure parts of `cmd/question.go` (problem lookup, description
sanitizer, starter-code selection, package-name derivation, template rendering, stub injection
and the file-creating driver), together with the properties the specification states about them.

Go strings are modelled as lists of characters.  Every pattern the program searches for is an
ASCII literal, and the texts it handles are UTF-8, where replacing an ASCII pattern on the
code-point sequence and on the byte sequence is the same operation.

Collaborators outside the repository are taken as parameters: the HTTP catalog (`Catalog`), the
`afero` filesystem (`Afero`) and the `go/parser` and `go/format` packages (`GoSyntax`).
-/

namespace GoLeetcode

/-- A Go `string`. -/
abbrev GoString := List Char

/-! ## Standard-library functions used by the program -/

/-- The scanning loop of `strings.Replace` for a non-empty pattern: `skip` counts the
characters of a match that are still to be passed over.  At a position where `old` matches, `new`
is written and the whole match is skipped, so matches are found left to right and never
overlap. -/
def replaceFrom (old new : GoString) : Nat → GoString → GoString
  | _, [] => []
  | skip + 1, _ :: s => replaceFrom old new skip s
  | 0, c :: s =>
    if old.isPrefixOf (c :: s) then new ++ replaceFrom old new (old.length - 1) s
    else c :: replaceFrom old new 0 s

/-- The function `strings.ReplaceAll(s, old, new)`: a copy of `s` with all non-overlapping
instances of `old` replaced by `new`.  When `old = new` the string is returned as it is; an empty
`old` matches at the beginning of the string and after each character. -/
def ReplaceAll (s old new : GoString) : GoString :=
  if old = new then s
  else if old = [] then new ++ s.flatMap (fun c => c :: new)
  else replaceFrom old new 0 s

/-- The byte `'0' + d` that `fmt` writes for the decimal digit `d`. -/
def digitByte (d : Nat) : Char := Char.ofNat (48 + d)

/-- The digit loop of `fmt`'s integer formatting in base 10: digits are produced right to left,
`for u >= 10 { next := u / 10; buf[i] = '0' + u - next*10; u = next }`, then the leading digit.
`fuel` bounds the number of iterations. -/
def fmtDigits : Nat → Nat → GoString → GoString
  | 0, u, buf => digitByte u :: buf
  | fuel + 1, u, buf =>
    if 10 ≤ u then fmtDigits fuel (u / 10) (digitByte (u - u / 10 * 10) :: buf)
    else digitByte u :: buf

/-- What `fmt.Sprintf("%d", i)` prints: the digits of the magnitude, after a minus sign when `i`
is negative. -/
def fmtInteger (i : Int) : GoString :=
  if i < 0 then '-' :: fmtDigits i.natAbs i.natAbs [] else fmtDigits i.natAbs i.natAbs []

/-! ## Constants of `cmd/question.go` -/

def BASE_URL : GoString := "https://leetcode.cn".toList
def QUESTIONS_URL : GoString := "/api/problems/algorithms/".toList
def GRAPHQL_URL : GoString := "/graphql/".toList
def PROBLEM_PREFIX : GoString := "/problems".toList

def TEMPLATE_FILE_URL : GoString := "template/question.tmpl".toList
def TEMPLATE_QUESTION_DESCRIPTION : GoString := "__QUESTION_DESCRIPTION__".toList
def TEMPLATE_QUESTION_LINK : GoString := "__QUESTION_LINK__".toList
def TEMPLATE_PACKAGE_NAME : GoString := "__PACKAGE_NAME__".toList
def TEMPLATE_CODE : GoString := "__CODE__".toList

/-- Go `error` values: the two static errors of the program, and errors that come from a
collaborator (network, JSON decoding, filesystem, parser). -/
inductive Error where
  | ErrCannotFindQuestionByID
  | ErrCannotGetGoSnippets
  | external (msg : GoString)
  deriving DecidableEq, Repr

/-- How a call ends when it does not return normally: with a returned `error`, with `panic(err)`,
or with the runtime panic of a nil pointer dereference. -/
inductive Abort where
  | err (e : Error)
  | panic (e : Error)
  | nilDereference
  deriving DecidableEq, Repr

/-! ## Data model (`cmd/model.go`) -/

structure StatRepo where
  QuestionID : Int
  QuestionTitleSlug : GoString
  deriving DecidableEq, Repr

/-- One element of `Questions.StatStatusPairs`. -/
structure StatStatusPair where
  Stat : StatRepo
  deriving DecidableEq, Repr

structure Questions where
  StatStatusPairs : List StatStatusPair
  deriving DecidableEq, Repr

structure CodeSnippetsRepo where
  Lang : GoString
  LangSlug : GoString
  Code : GoString
  Typename : GoString
  deriving DecidableEq, Repr

structure QuestionDetailRepo where
  QuestionID : GoString
  TitleSlug : GoString
  Content : GoString
  TranslatedTitle : GoString
  SampleTestCase : GoString
  TranslatedContent : GoString
  CodeSnippets : List CodeSnippetsRepo
  deriving DecidableEq, Repr

/-- The `Question` struct without its HTTP client; `Detail` is a pointer, `none` is nil. -/
structure Question where
  ID : Int
  Slug : GoString
  Detail : Option QuestionDetailRepo
  deriving DecidableEq, Repr

/-- The two requests of the catalog client, as their decoded results. -/
structure Catalog where
  /-- The result of `getAllQuestion`: `GET /api/problems/algorithms/` and JSON decoding. -/
  getAllQuestion : Except Error Questions
  /-- The result of the GraphQL request of `setQuestionDetail` for a slug. -/
  questionData : GoString → Except Error QuestionDetailRepo

def NewQuestion (id : Int) : Question :=
  { ID := id, Slug := [], Detail := none }

/-! ## Catalog client -/

/-- The method `Question.getQuestionStatByID`: the `for ... range` scan over `StatStatusPairs`,
returning at the first pair whose `Stat.QuestionID` equals the question's id; `none` is nil. -/
def getQuestionStatByID (q : Question) (questions : Questions) : Option StatRepo :=
  go questions.StatStatusPairs
where
  go : List StatStatusPair → Option StatRepo
    | [] => none
    | x :: rest => if x.Stat.QuestionID = q.ID then some x.Stat else go rest

/-- The method `Question.setQuestionDetail`: on success stores the fetched detail in the
question. -/
def setQuestionDetail (net : Catalog) (q : Question) : Question × Option Error :=
  match net.questionData q.Slug with
  | .error e => (q, some e)
  | .ok detail => ({ q with Detail := some detail }, none)

/-- The method `Question.Build`: the updated question and the returned error (`none` is a nil
error). -/
def Build (net : Catalog) (q : Question) : Question × Option Error :=
  match net.getAllQuestion with
  | .error e => (q, some e)
  | .ok allQuestion =>
    match getQuestionStatByID q allQuestion with
    | none => (q, some Error.ErrCannotFindQuestionByID)
    | some stat => setQuestionDetail net { q with Slug := stat.QuestionTitleSlug }

/-! ## Question file -/

/-- The `QuestionFile` struct without its filesystem handle, which is passed separately. -/
structure QuestionFile where
  Question : Question
  deriving DecidableEq, Repr

def NewQuestionFile (q : Question) : QuestionFile := { Question := q }

/-- The method `QuestionFile.getPackageName`:
`fmt.Sprintf("s%d_%s", ID, strings.ReplaceAll(Slug, "-", "_"))`. -/
def getPackageName (f : QuestionFile) : GoString :=
  let fmtTitle := ReplaceAll f.Question.Slug "-".toList "_".toList
  "s".toList ++ fmtInteger f.Question.ID ++ "_".toList ++ fmtTitle

/-- The type `desc`, a string with a chaining `replace` method; `desc.mk` and `desc.str` are the
conversions `desc(...)` and `string(...)`. -/
structure desc where
  str : GoString
  deriving DecidableEq, Repr

/-- The method `desc.replace`: one `strings.ReplaceAll` on the underlying string. -/
def desc.replace (d : desc) (old new : GoString) : desc :=
  desc.mk (ReplaceAll d.str old new)

/-- The replacement chain of `buildDesc`, applied to the translated content. -/
def descChain (content : GoString) : GoString :=
  desc.str <| (desc.mk content)
    |>.replace "<strong>".toList "".toList
    |>.replace "</strong>".toList "".toList
    |>.replace "<em>".toList "".toList
    |>.replace "</em>".toList "".toList
    |>.replace "</p>".toList "".toList
    |>.replace "<p>".toList "".toList
    |>.replace "<b>".toList "".toList
    |>.replace "</b>".toList "".toList
    |>.replace "<pre>".toList "".toList
    |>.replace "</pre>".toList "".toList
    |>.replace "<ul>".toList "".toList
    |>.replace "</ul>".toList "".toList
    |>.replace "<li>".toList "".toList
    |>.replace "</li>".toList "".toList
    |>.replace "<code>".toList "".toList
    |>.replace "</code>".toList "".toList
    |>.replace "<i>".toList "".toList
    |>.replace "</i>".toList "".toList
    |>.replace "<sub>".toList "".toList
    |>.replace "</sub>".toList "".toList
    |>.replace "</sup>".toList "".toList
    |>.replace "<sup>".toList "^".toList
    |>.replace "&nbsp;".toList " ".toList
    |>.replace "&gt;".toList ">".toList
    |>.replace "&lt;".toList "<".toList
    |>.replace "&quot;".toList "\"".toList
    |>.replace "&minus;".toList "-".toList
    |>.replace "&#39;".toList "'".toList
    |>.replace "\n\n".toList "\n".toList

/-- The method `QuestionFile.buildDesc`: the chain on `Detail.TranslatedContent`; reading
through a nil `Detail` is a runtime panic. -/
def buildDesc (f : QuestionFile) : Except Abort GoString :=
  match f.Question.Detail with
  | none => .error Abort.nilDereference
  | some detail => .ok (descChain detail.TranslatedContent)

/-- The method `QuestionFile.buildCode`: the code of the first snippet whose `Lang` is `"Go"`. -/
def buildCode (f : QuestionFile) : Except Abort GoString :=
  match f.Question.Detail with
  | none => .error Abort.nilDereference
  | some detail => go detail.CodeSnippets
where
  go : List CodeSnippetsRepo → Except Abort GoString
    | [] => .error (Abort.err Error.ErrCannotGetGoSnippets)
    | c :: rest => if c.Lang = "Go".toList then .ok c.Code else go rest

/-! ## Stub injection -/

/-- The expressions of `go/ast` the program builds or meets: a call, or anything else. -/
inductive Expr where
  | CallExpr (Fun : GoString) (Args : List GoString)
  | Other (src : GoString)
  deriving DecidableEq, Repr

/-- The statements of `go/ast`: an expression statement, or anything else. -/
inductive Stmt where
  | ExprStmt (X : Expr)
  | Other (src : GoString)
  deriving DecidableEq, Repr

/-- The node `ast.FuncDecl`.  `Body` is a pointer to a block statement and is nil (`none`) for a
declaration without a body, that is a function implemented outside Go; otherwise it holds the
statement list of the block. -/
structure FuncDecl where
  Recv : GoString
  Name : GoString
  FuncType : GoString
  Body : Option (List Stmt)
  deriving DecidableEq, Repr

/-- The top-level declarations: `ast.FuncDecl`, `ast.GenDecl` (imports, types, constants,
variables) and `ast.BadDecl`. -/
inductive Decl where
  | FuncDecl (d : FuncDecl)
  | GenDecl (src : GoString)
  | BadDecl
  deriving DecidableEq, Repr

/-- The node `ast.File`. -/
structure File where
  Name : GoString
  Decls : List Decl
  Comments : List GoString
  deriving DecidableEq, Repr

/-- The functions of `go/parser` and `go/format` that `injectToDo` calls. -/
structure GoSyntax where
  ParseFile : GoString → Except Error File
  ParseExpr : GoString → Except Error Expr
  formatNode : File → Except Error GoString

/-- The callback `injectToDo` passes to `ast.Inspect`, at a node that is a `*ast.FuncDecl`:
the marker expression is parsed, then stored as the only statement of `expr.Body.List`.  Writing
through a nil `Body` is a nil pointer dereference. -/
def stubFuncDecl (syn : GoSyntax) (expr : FuncDecl) : Except Abort FuncDecl :=
  match syn.ParseExpr "panic(\"TODO\")".toList with
  | .error err => .error (Abort.panic err)
  | .ok e =>
    match expr.Body with
    | none => .error Abort.nilDereference
    | some _ => .ok { expr with Body := some [Stmt.ExprStmt e] }

/-- The walk of `ast.Inspect` over the file.  Function declarations occur only among the
top-level declarations of a file, so the callback acts exactly on those, in source order; at
every other node it returns `true` and changes nothing. -/
def inspectDecls (syn : GoSyntax) : List Decl → Except Abort (List Decl)
  | [] => .ok []
  | Decl.FuncDecl d :: rest =>
    match stubFuncDecl syn d with
    | .error a => .error a
    | .ok d' =>
      match inspectDecls syn rest with
      | .error a => .error a
      | .ok rest' => .ok (Decl.FuncDecl d' :: rest')
  | d :: rest =>
    match inspectDecls syn rest with
    | .error a => .error a
    | .ok rest' => .ok (d :: rest')

/-- The method `QuestionFile.injectToDo`: parse, stub every function declaration, print. -/
def injectToDo (syn : GoSyntax) (code : GoString) : Except Abort GoString :=
  match syn.ParseFile code with
  | .error err => .error (Abort.panic err)
  | .ok astFile =>
    match inspectDecls syn astFile.Decls with
    | .error a => .error a
    | .ok decls =>
      match syn.formatNode { astFile with Decls := decls } with
      | .error err => .error (Abort.panic err)
      | .ok out => .ok out

/-! ## File creation -/

/-- The operations of `afero.Fs` and of its files that the program calls, over a filesystem
state `σ` and file handles `η`.  Opening a file for reading leaves the state as it is; the
mutating operations return the new state together with their result. -/
structure Afero (σ η : Type) where
  Open : σ → GoString → Except Error η
  ReadAll : η → Except Error GoString
  Mkdir : σ → GoString → σ × Option Error
  Create : σ → GoString → σ × Except Error η
  WriteString : σ → η → GoString → σ × Option Error

/-- The method `QuestionFile.loadQuestionTemplate`: open the template file and read it
whole. -/
def loadQuestionTemplate {σ η : Type} (os : Afero σ η) (fs : σ) : Except Error GoString :=
  match os.Open fs TEMPLATE_FILE_URL with
  | .error err => .error err
  | .ok file =>
    match os.ReadAll file with
    | .error err => .error err
    | .ok b => .ok b

/-- Step "1. render file" of `Create`: the four `strings.ReplaceAll` calls, in the order of the
source, on the template and the values computed before. -/
def renderFile (questionTemplate desc link code packageName : GoString) : GoString :=
  let content := ReplaceAll questionTemplate TEMPLATE_QUESTION_DESCRIPTION desc
  let content := ReplaceAll content TEMPLATE_QUESTION_LINK link
  let content := ReplaceAll content TEMPLATE_CODE code
  let content := ReplaceAll content TEMPLATE_PACKAGE_NAME packageName
  content

/-- The link `fmt.Sprintf("%s%s/%s", BASE_URL, PROBLEM_PREFIX, Slug)` of `Create`. -/
def questionLink (f : QuestionFile) : GoString :=
  BASE_URL ++ PROBLEM_PREFIX ++ "/".toList ++ f.Question.Slug

/-- The method `QuestionFile.Create`: the filesystem after the call, and how the call ended. -/
def Create {σ η : Type} (os : Afero σ η) (syn : GoSyntax) (f : QuestionFile) (fs : σ) :
    σ × Except Abort Unit :=
  match loadQuestionTemplate os fs with
  | .error err => (fs, .error (Abort.err err))
  | .ok questionTemplate =>
    match buildDesc f with
    | .error a => (fs, .error a)
    | .ok desc =>
      match buildCode f with
      | .error a => (fs, .error a)
      | .ok code =>
        let packageName := getPackageName f
        let content := renderFile questionTemplate desc (questionLink f) code packageName
        match injectToDo syn content with
        | .error a => (fs, .error a)
        | .ok content =>
          match os.Mkdir fs packageName with
          | (fs, some err) => (fs, .error (Abort.err err))
          | (fs, none) =>
            match os.Create fs (packageName ++ "/".toList ++ packageName ++ ".go".toList) with
            | (fs, .error err) => (fs, .error (Abort.err err))
            | (fs, .ok q) =>
              match os.WriteString fs q content with
              | (fs, some err) => (fs, .error (Abort.err err))
              | (fs, none) => (fs, .ok ())

/-! ## Definitions for the statements -/

/-- The numeral for a decimal digit, read off the table of the ten digits. -/
def decimalDigit (d : Nat) : Char := "0123456789".toList.getD d '0'

/-- The decimal rendering of an integer: a minus sign for a negative number, then the digits of
the magnitude, most significant first (`0` is written `0`). -/
def decimal (i : Int) : GoString :=
  (if i < 0 then ['-'] else []) ++
    (if i = 0 then ['0'] else (Nat.digits 10 i.natAbs).reverse.map decimalDigit)

/-- The tags on the sanitizer's removal list. -/
def removalTags : List GoString :=
  ["<strong>".toList, "</strong>".toList, "<em>".toList, "</em>".toList, "<p>".toList,
   "</p>".toList, "<b>".toList, "</b>".toList, "<pre>".toList, "</pre>".toList,
   "<ul>".toList, "</ul>".toList, "<li>".toList, "</li>".toList, "<code>".toList,
   "</code>".toList, "<i>".toList, "</i>".toList, "<sub>".toList, "</sub>".toList,
   "<sup>".toList, "</sup>".toList]

/-- The entities the sanitizer decodes. -/
def entities : List GoString :=
  ["&nbsp;".toList, "&gt;".toList, "&lt;".toList, "&quot;".toList, "&minus;".toList,
   "&#39;".toList]

/-- Every literal pattern the sanitizer searches for: the tags, the entities and the doubled
newline. -/
def sanitizerPatterns : List GoString :=
  removalTags ++ entities ++ ["\n\n".toList]

/-- The tag-removing replacements of `buildDesc`, in source order, as (pattern, replacement)
pairs. -/
def tagRules : List (GoString × GoString) :=
  [("<strong>".toList, "".toList), ("</strong>".toList, "".toList),
   ("<em>".toList, "".toList), ("</em>".toList, "".toList),
   ("</p>".toList, "".toList), ("<p>".toList, "".toList),
   ("<b>".toList, "".toList), ("</b>".toList, "".toList),
   ("<pre>".toList, "".toList), ("</pre>".toList, "".toList),
   ("<ul>".toList, "".toList), ("</ul>".toList, "".toList),
   ("<li>".toList, "".toList), ("</li>".toList, "".toList),
   ("<code>".toList, "".toList), ("</code>".toList, "".toList),
   ("<i>".toList, "".toList), ("</i>".toList, "".toList),
   ("<sub>".toList, "".toList), ("</sub>".toList, "".toList),
   ("</sup>".toList, "".toList), ("<sup>".toList, "^".toList)]

/-- The entity-decoding replacements of `buildDesc` and the newline collapse, in source order. -/
def entityRules : List (GoString × GoString) :=
  [("&nbsp;".toList, " ".toList), ("&gt;".toList, ">".toList), ("&lt;".toList, "<".toList),
   ("&quot;".toList, "\"".toList), ("&minus;".toList, "-".toList), ("&#39;".toList, "'".toList),
   ("\n\n".toList, "\n".toList)]

/-- All replacements of `buildDesc`, in source order. -/
def descRules : List (GoString × GoString) := tagRules ++ entityRules

/-- A list of replacements applied one after the other. -/
def applyRules (rules : List (GoString × GoString)) (t : GoString) : GoString :=
  rules.foldl (fun d r => ReplaceAll d r.1 r.2) t

/-- A rich text cut into its tags and the text between them. -/
inductive Piece where
  | tag (t : GoString)
  | text (u : GoString)
  deriving DecidableEq, Repr

/-- The characters of a piece as they stand in the text. -/
def Piece.str : Piece → GoString
  | Piece.tag t => t
  | Piece.text u => u

/-- The text a list of pieces stands for. -/
def flatten (ps : List Piece) : GoString := ps.flatMap Piece.str

/-- A piece of a text whose markup is on the removal list: a tag is one of the listed tags, and
the text between tags holds no angle bracket. -/
def Piece.Listed : Piece → Prop
  | Piece.tag t => t ∈ removalTags
  | Piece.text u => '<' ∉ u ∧ '>' ∉ u

instance Piece.decidableListed (p : Piece) : Decidable p.Listed := by
  cases p <;> (unfold Piece.Listed; infer_instance)

/-- The texts whose markup consists only of tags from the removal list. -/
def OnlyListedTags (ps : List Piece) : Prop := ∀ p ∈ ps, p.Listed

instance decidableOnlyListedTags (ps : List Piece) : Decidable (OnlyListedTags ps) := by
  unfold OnlyListedTags; infer_instance

/-- What is left of a piece when the tags are taken out: text stays, the tag `<sup>` leaves a
caret, every other tag leaves nothing. -/
def Piece.stripped : Piece → GoString
  | Piece.tag t => if t = "<sup>".toList then "^".toList else []
  | Piece.text u => u

/-- The text with its tags taken out. -/
def stripped (ps : List Piece) : GoString := ps.flatMap Piece.stripped

/-- A text with its angle brackets written as entities: `<b>` becomes `&lt;b&gt;`. -/
def escaped (t : GoString) : GoString :=
  t.flatMap (fun c =>
    if c = '<' then "&lt;".toList else if c = '>' then "&gt;".toList else [c])

/-- One replacement seen on a piece: the tag `old` becomes the text `new`. -/
def Piece.swap (old new : GoString) : Piece → Piece
  | Piece.tag t => if t = old then Piece.text new else Piece.tag t
  | Piece.text u => Piece.text u

/-- Two strings differ at a position that both have. -/
def clash : GoString → GoString → Bool
  | a :: as, b :: bs => a != b || clash as bs
  | _, _ => false

deriving instance DecidableEq for Except

/-- A question after a successful `Build`: its detail holds the given translated content and
code snippets. -/
def questionFileOf (id : Int) (slug content : GoString) (snippets : List CodeSnippetsRepo) :
    QuestionFile :=
  { Question :=
      { ID := id
        Slug := slug
        Detail := some
          { QuestionID := []
            TitleSlug := slug
            Content := []
            TranslatedTitle := []
            SampleTestCase := []
            TranslatedContent := content
            CodeSnippets := snippets } } }

/-- An in-memory filesystem: the directories, and the files with their content. -/
structure MemFs where
  dirs : List GoString
  files : List (GoString × GoString)
  deriving DecidableEq, Repr

/-- An open file of the in-memory filesystem. -/
structure MemFile where
  path : GoString
  content : GoString
  deriving DecidableEq, Repr

/-- The operations of the in-memory filesystem, used to run `Create` on concrete inputs. -/
def memOs : Afero MemFs MemFile where
  Open fs name :=
    match fs.files.lookup name with
    | some content => .ok { path := name, content := content }
    | none => .error (Error.external "file does not exist".toList)
  ReadAll file := .ok file.content
  Mkdir fs name :=
    if name ∈ fs.dirs then (fs, some (Error.external "file exists".toList))
    else ({ fs with dirs := name :: fs.dirs }, none)
  Create fs name :=
    ({ fs with files := (name, []) :: fs.files.filter (fun e => e.1 ≠ name) },
      .ok { path := name, content := [] })
  WriteString fs file s :=
    ({ fs with
        files := (file.path, file.content ++ s) :: fs.files.filter (fun e => e.1 ≠ file.path) },
      none)

/-- A stand-in for `go/parser` and `go/format` that answers every source with the given tree,
parses the marker expression as the call it is, and prints a tree as its package name. -/
def fixedSyntax (astFile : File) : GoSyntax where
  ParseFile _ := .ok astFile
  ParseExpr _ := .ok (Expr.CallExpr "panic".toList ["\"TODO\"".toList])
  formatNode file := .ok file.Name

/-- Two snippets that both carry the language `Go`. -/
def twoGoSnippets : List CodeSnippetsRepo :=
  [{ Lang := "Go".toList, LangSlug := "golang".toList, Code := "A".toList, Typename := [] },
   { Lang := "Go".toList, LangSlug := "golang".toList, Code := "B".toList, Typename := [] }]

/-- A tree with one function declaration that has no body, as `go/parser` returns it for the
source `package p; func f()`. -/
def bodylessFile : File :=
  { Name := "p".toList
    Decls := [Decl.FuncDecl { Recv := [], Name := "f".toList, FuncType := "()".toList,
                              Body := none }]
    Comments := [] }

/-- The rendering order the specification words: description, link, package name, code. -/
def renderSpecOrder (questionTemplate desc link code packageName : GoString) : GoString :=
  applyRules
    [(TEMPLATE_QUESTION_DESCRIPTION, desc), (TEMPLATE_QUESTION_LINK, link),
     (TEMPLATE_PACKAGE_NAME, packageName), (TEMPLATE_CODE, code)]
    questionTemplate

/-- What the stub callback makes of a declaration, given the parsed marker expression `e`. -/
def Decl.stubbed (e : Expr) : Decl → Decl
  | Decl.FuncDecl d => Decl.FuncDecl { d with Body := some [Stmt.ExprStmt e] }
  | d => d

/-- The four placeholders of the question template. -/
inductive Placeholder where
  | description
  | link
  | code
  | packageName
  deriving DecidableEq, Repr

/-- The token that stands for a placeholder in the template. -/
def Placeholder.token : Placeholder → GoString
  | Placeholder.description => TEMPLATE_QUESTION_DESCRIPTION
  | Placeholder.link => TEMPLATE_QUESTION_LINK
  | Placeholder.code => TEMPLATE_CODE
  | Placeholder.packageName => TEMPLATE_PACKAGE_NAME

/-- All placeholders. -/
def Placeholder.all : List Placeholder :=
  [Placeholder.description, Placeholder.link, Placeholder.code, Placeholder.packageName]

/-- A template cut into its placeholders and the literal text between them. -/
inductive TPiece where
  | hole (k : Placeholder)
  | lit (u : GoString)
  deriving DecidableEq, Repr

/-- The characters of a template piece as they stand in the template. -/
def TPiece.str : TPiece → GoString
  | TPiece.hole k => k.token
  | TPiece.lit u => u

/-- The template text a list of pieces stands for. -/
def templateText (ps : List TPiece) : GoString := ps.flatMap TPiece.str

/-- One substitution seen on a piece: the placeholder `k` becomes the literal text `v`. -/
def TPiece.fill (k : Placeholder) (v : GoString) : TPiece → TPiece
  | TPiece.hole k' => if k' = k then TPiece.lit v else TPiece.hole k'
  | TPiece.lit u => TPiece.lit u

/-- The text of a piece once every placeholder stands for its value. -/
def TPiece.value (desc link code packageName : GoString) : TPiece → GoString
  | TPiece.hole Placeholder.description => desc
  | TPiece.hole Placeholder.link => link
  | TPiece.hole Placeholder.code => code
  | TPiece.hole Placeholder.packageName => packageName
  | TPiece.lit u => u

/-- The template with every placeholder replaced by its value. -/
def filled (ps : List TPiece) (desc link code packageName : GoString) : GoString :=
  ps.flatMap (TPiece.value desc link code packageName)

/-- No placeholder other than `k` is directly followed by the token of `k` without its two
leading underscores: the closing underscores of a placeholder never begin an occurrence of the
token of `k`. -/
def Clear (k : Placeholder) : List TPiece → Prop
  | [] => True
  | TPiece.hole k' :: rest =>
    (k' = k ∨ ¬ k.token.drop 2 <+: templateText rest) ∧ Clear k rest
  | TPiece.lit _ :: rest => Clear k rest

instance decidableClear (k : Placeholder) : (ps : List TPiece) → Decidable (Clear k ps)
  | [] => isTrue trivial
  | TPiece.hole k' :: rest =>
    have := decidableClear k rest
    inferInstanceAs
      (Decidable ((k' = k ∨ ¬ k.token.drop 2 <+: templateText rest) ∧ Clear k rest))
  | TPiece.lit _ :: rest => decidableClear k rest

/-- The three ways a placeholder token begins. -/
def tokenStarts : List GoString := ["__Q".toList, "__P".toList, "__C".toList]

/-- A text that brings in no beginning of a placeholder token, neither inside nor at its
ends: it does not begin with an underscore, does not end with a double underscore, and holds no
double underscore followed by `Q`, `P` or `C`. -/
def Safe (u : GoString) : Prop :=
  u.head? ≠ some '_' ∧ ¬ "__".toList <:+ u ∧ ∀ p ∈ tokenStarts, ¬ p <:+: u

instance decidableSafe (u : GoString) : Decidable (Safe u) := by
  unfold Safe; infer_instance

/-- A template piece whose literal text is safe. -/
def TPiece.Safe : TPiece → Prop
  | TPiece.hole _ => True
  | TPiece.lit u => GoLeetcode.Safe u

instance TPiece.decidableSafe (p : TPiece) : Decidable p.Safe := by
  cases p <;> (unfold TPiece.Safe; infer_instance)

/-- A sample question template: the package clause, the description and the link inside a
comment, then the code. -/
def sampleTemplate : List TPiece :=
  [TPiece.lit "package ".toList, TPiece.hole Placeholder.packageName,
   TPiece.lit "\n\n/*\n".toList, TPiece.hole Placeholder.description,
   TPiece.lit "\n".toList, TPiece.hole Placeholder.link,
   TPiece.lit "\n*/\n\n".toList, TPiece.hole Placeholder.code, TPiece.lit "\n".toList]
/-! ## Lemmas on `ReplaceAll` -/

theorem replaceFrom_skip (old new : GoString) (s : GoString) (k : Nat) :
    replaceFrom old new k s = replaceFrom old new 0 (s.drop k) := by
  induction s generalizing k with
  | nil => cases k <;> simp [replaceFrom]
  | cons c s ih =>
    cases k with
    | zero => simp
    | succ k => simp [replaceFrom, ih k]

theorem replaceFrom_nil (old new : GoString) : replaceFrom old new 0 [] = [] := by
  simp [replaceFrom]

theorem replaceFrom_cons_no_match {old new : GoString} {c : Char} {s : GoString}
    (h : ¬ old <+: c :: s) :
    replaceFrom old new 0 (c :: s) = c :: replaceFrom old new 0 s := by
  simp [replaceFrom, h]

theorem replaceFrom_match {old new : GoString} (hold : old ≠ []) {s : GoString}
    (h : old <+: s) :
    replaceFrom old new 0 s = new ++ replaceFrom old new 0 (s.drop old.length) := by
  cases s with
  | nil => simp at h; exact absurd h hold
  | cons c s =>
    have hlen : old.length - 1 + 1 = old.length := by
      have := List.length_pos.mpr hold
      omega
    rw [replaceFrom, if_pos (by simpa using h), replaceFrom_skip old new s (old.length - 1)]
    congr 2
    rw [← hlen]
    simp

theorem replaceFrom_append_match {old new : GoString} (hold : old ≠ []) (r : GoString) :
    replaceFrom old new 0 (old ++ r) = new ++ replaceFrom old new 0 r := by
  rw [replaceFrom_match hold (List.prefix_append old r)]
  simp

theorem replaceFrom_append_of_not_mem {old new : GoString} {c : Char} {t : GoString}
    (hold : old = c :: t) (u r : GoString) (hu : c ∉ u) :
    replaceFrom old new 0 (u ++ r) = u ++ replaceFrom old new 0 r := by
  induction u with
  | nil => simp
  | cons d u ih =>
    have hd : d ≠ c := fun h => hu (by simp [h])
    have hnp : ¬ old <+: d :: (u ++ r) := by
      rw [hold, List.cons_prefix_cons]
      exact fun h => hd h.1.symm
    rw [List.cons_append, replaceFrom_cons_no_match hnp, ih (fun h => hu (by simp [h]))]
    rfl

theorem replaceFrom_eq_self {old new : GoString} {s : GoString} (h : ¬ old <:+: s) :
    replaceFrom old new 0 s = s := by
  induction s with
  | nil => simp [replaceFrom]
  | cons c s ih =>
    rw [List.infix_cons_iff, not_or] at h
    rw [replaceFrom_cons_no_match h.1, ih h.2]

theorem ReplaceAll_eq_replaceFrom {old new : GoString} (hne : old ≠ new) (hold : old ≠ [])
    (s : GoString) : ReplaceAll s old new = replaceFrom old new 0 s := by
  simp [ReplaceAll, hne, hold]

theorem ReplaceAll_eq_self {old new : GoString} (hold : old ≠ []) {s : GoString}
    (h : ¬ old <:+: s) : ReplaceAll s old new = s := by
  by_cases hne : old = new
  · simp [ReplaceAll, hne]
  · simp [ReplaceAll, hne, hold, replaceFrom_eq_self h]

theorem mem_replaceFrom {old new : GoString} {x : Char} :
    ∀ (s : GoString) (k : Nat), x ∈ replaceFrom old new k s → x ∈ s ∨ x ∈ new := by
  intro s
  induction s with
  | nil => intro k h; cases k <;> simp [replaceFrom] at h
  | cons c s ih =>
    intro k h
    cases k with
    | succ k =>
      rw [replaceFrom] at h
      rcases ih k h with h | h
      · exact Or.inl (List.mem_cons_of_mem _ h)
      · exact Or.inr h
    | zero =>
      rw [replaceFrom] at h
      split at h
      · rcases List.mem_append.mp h with h | h
        · exact Or.inr h
        · rcases ih _ h with h | h
          · exact Or.inl (List.mem_cons_of_mem _ h)
          · exact Or.inr h
      · rcases List.mem_cons.mp h with h | h
        · exact Or.inl (by simp [h])
        · rcases ih _ h with h | h
          · exact Or.inl (List.mem_cons_of_mem _ h)
          · exact Or.inr h

theorem length_replaceFrom_le_aux {old new : GoString} (hold : old ≠ [])
    (hlen : new.length ≤ old.length) :
    ∀ (n : Nat) (s : GoString), s.length ≤ n →
      (replaceFrom old new 0 s).length ≤ s.length := by
  intro n
  induction n with
  | zero =>
    intro s hs
    have : s = [] := List.length_eq_zero.mp (by omega)
    subst this
    simp [replaceFrom]
  | succ n ih =>
    intro s hs
    cases s with
    | nil => simp [replaceFrom]
    | cons c s =>
      have hpos := List.length_pos.mpr hold
      by_cases hp : old <+: c :: s
      · rw [replaceFrom_match hold hp, List.length_append]
        have hle := hp.length_le
        have hd : ((c :: s).drop old.length).length ≤ n := by
          rw [List.length_drop]
          simp only [List.length_cons] at hs ⊢
          omega
        have := ih _ hd
        rw [List.length_drop] at this
        omega
      · rw [replaceFrom_cons_no_match hp]
        have := ih s (by simpa using hs)
        simp only [List.length_cons]
        omega

theorem length_replaceFrom_le {old new : GoString} (hold : old ≠ [])
    (hlen : new.length ≤ old.length) (s : GoString) :
    (replaceFrom old new 0 s).length ≤ s.length :=
  length_replaceFrom_le_aux hold hlen s.length s (Nat.le_refl _)

theorem length_replaceFrom_lt {old new : GoString} (hold : old ≠ [])
    (hlen : new.length < old.length) {s : GoString} (h : old <:+: s) :
    (replaceFrom old new 0 s).length < s.length := by
  induction s with
  | nil => simp at h; exact absurd h hold
  | cons c s ih =>
    by_cases hp : old <+: c :: s
    · rw [replaceFrom_match hold hp, List.length_append]
      have hle := hp.length_le
      have := length_replaceFrom_le hold (Nat.le_of_lt hlen) ((c :: s).drop old.length)
      rw [List.length_drop] at this
      omega
    · rw [replaceFrom_cons_no_match hp]
      have hin : old <:+: s := by
        rcases List.infix_cons_iff.mp h with h | h
        · exact absurd h hp
        · exact h
      have := ih hin
      simp only [List.length_cons]
      omega

/-! ## Lemmas on formatting -/

theorem digitByte_eq_decimalDigit {d : Nat} (h : d < 10) : digitByte d = decimalDigit d := by
  interval_cases d <;> rfl

theorem fmtDigits_eq (fuel : Nat) : ∀ (u : Nat) (buf : GoString), u ≤ fuel →
    fmtDigits fuel u buf =
      (if u = 0 then ['0'] else (Nat.digits 10 u).reverse.map decimalDigit) ++ buf := by
  induction fuel with
  | zero =>
    intro u buf hu
    have : u = 0 := by omega
    subst this
    rfl
  | succ fuel ih =>
    intro u buf hu
    rw [fmtDigits]
    by_cases h10 : 10 ≤ u
    · rw [if_pos h10, ih (u / 10) _ (by omega)]
      have hq : u / 10 ≠ 0 := by omega
      have hu0 : u ≠ 0 := by omega
      have hd : Nat.digits 10 u = u % 10 :: Nat.digits 10 (u / 10) :=
        Nat.digits_def' (by norm_num) (by omega)
      have hm : u - u / 10 * 10 = u % 10 := by omega
      rw [if_neg hq, if_neg hu0, hd, hm, digitByte_eq_decimalDigit (Nat.mod_lt u (by norm_num))]
      simp
    · rw [if_neg h10]
      by_cases hu0 : u = 0
      · subst hu0; rfl
      · rw [if_neg hu0, Nat.digits_of_lt 10 u hu0 (by omega),
          digitByte_eq_decimalDigit (by omega : u < 10)]
        rfl

theorem fmtInteger_eq_decimal (i : Int) : fmtInteger i = decimal i := by
  unfold fmtInteger decimal
  have h0 : (i = 0) ↔ i.natAbs = 0 := by omega
  by_cases hneg : i < 0
  · simp only [if_pos hneg, fmtDigits_eq _ _ _ (Nat.le_refl _), h0]
    simp
  · simp only [if_neg hneg, fmtDigits_eq _ _ _ (Nat.le_refl _), h0]
    simp

theorem replaceFrom_single (a b : Char) (s : GoString) :
    replaceFrom [a] [b] 0 s = s.map (fun c => if c = a then b else c) := by
  induction s with
  | nil => simp [replaceFrom]
  | cons c s ih =>
    rw [replaceFrom]
    by_cases h : c = a
    · subst h
      simp [ih]
    · have h' : ¬ a = c := fun e => h e.symm
      simp [ih, h, h']

/-! ## Lemmas on the sanitizer -/

theorem descChain_eq_applyRules (t : GoString) : descChain t = applyRules descRules t := by
  simp only [descChain, applyRules, descRules, tagRules, entityRules, desc.replace,
    List.cons_append, List.nil_append, List.foldl_cons, List.foldl_nil]

theorem applyRules_append (r₁ r₂ : List (GoString × GoString)) (t : GoString) :
    applyRules (r₁ ++ r₂) t = applyRules r₂ (applyRules r₁ t) := by
  simp [applyRules, List.foldl_append]

theorem applyRules_cons (r : GoString × GoString) (rs : List (GoString × GoString))
    (t : GoString) : applyRules (r :: rs) t = applyRules rs (ReplaceAll t r.1 r.2) := rfl

theorem descRules_patterns : ∀ p, p ∈ descRules.map Prod.fst ↔ p ∈ sanitizerPatterns := by
  have h₁ : ∀ p ∈ descRules.map Prod.fst, p ∈ sanitizerPatterns := by decide
  have h₂ : ∀ p ∈ sanitizerPatterns, p ∈ descRules.map Prod.fst := by decide
  exact fun p => ⟨h₁ p, h₂ p⟩

theorem descRules_shrink : ∀ r ∈ descRules, r.1 ≠ [] ∧ r.2.length < r.1.length := by
  decide

theorem applyRules_eq_self (rules : List (GoString × GoString))
    (hne : ∀ r ∈ rules, r.1 ≠ []) (t : GoString) (h : ∀ r ∈ rules, ¬ r.1 <:+: t) :
    applyRules rules t = t := by
  induction rules with
  | nil => rfl
  | cons r rs ih =>
    rw [applyRules_cons, ReplaceAll_eq_self (hne r (by simp)) (h r (by simp))]
    exact ih (fun r hr => hne r (by simp [hr])) (fun r hr => h r (by simp [hr]))

theorem length_ReplaceAll_le {old new : GoString} (hold : old ≠ [])
    (hlen : new.length ≤ old.length) (s : GoString) :
    (ReplaceAll s old new).length ≤ s.length := by
  by_cases hne : old = new
  · simp [ReplaceAll, hne]
  · rw [ReplaceAll_eq_replaceFrom hne hold]
    exact length_replaceFrom_le hold hlen s

theorem length_ReplaceAll_lt {old new : GoString} (hold : old ≠ [])
    (hlen : new.length < old.length) {s : GoString} (h : old <:+: s) :
    (ReplaceAll s old new).length < s.length := by
  have hne : old ≠ new := by
    intro e
    rw [e] at hlen
    exact Nat.lt_irrefl _ hlen
  rw [ReplaceAll_eq_replaceFrom hne hold]
  exact length_replaceFrom_lt hold hlen h

theorem length_applyRules_le (rules : List (GoString × GoString))
    (hr : ∀ r ∈ rules, r.1 ≠ [] ∧ r.2.length < r.1.length) (t : GoString) :
    (applyRules rules t).length ≤ t.length := by
  induction rules generalizing t with
  | nil => exact Nat.le_refl _
  | cons r rs ih =>
    rw [applyRules_cons]
    have h1 := ih (fun r hr' => hr r (by simp [hr'])) (ReplaceAll t r.1 r.2)
    have h2 := length_ReplaceAll_le (hr r (by simp)).1 (Nat.le_of_lt (hr r (by simp)).2) t
    omega

theorem length_applyRules_lt (rules : List (GoString × GoString))
    (hr : ∀ r ∈ rules, r.1 ≠ [] ∧ r.2.length < r.1.length) (t : GoString)
    (h : ∃ r ∈ rules, r.1 <:+: t) :
    (applyRules rules t).length < t.length := by
  induction rules with
  | nil => simp at h
  | cons r rs ih =>
    rw [applyRules_cons]
    have hrs : ∀ r ∈ rs, r.1 ≠ [] ∧ r.2.length < r.1.length :=
      fun r hr' => hr r (by simp [hr'])
    by_cases hin : r.1 <:+: t
    · have h1 := length_applyRules_le rs hrs (ReplaceAll t r.1 r.2)
      have h2 := length_ReplaceAll_lt (hr r (by simp)).1 (hr r (by simp)).2 hin
      omega
    · rw [ReplaceAll_eq_self (hr r (by simp)).1 hin]
      apply ih hrs
      obtain ⟨r', hr', hin'⟩ := h
      rcases List.mem_cons.mp hr' with e | hmem
      · subst e; exact absurd hin' hin
      · exact ⟨r', hmem, hin'⟩

/-- The sanitizer leaves a text as it is exactly when none of its patterns occurs in it. -/
theorem descChain_fixed_iff (t : GoString) :
    descChain t = t ↔ ∀ p ∈ sanitizerPatterns, ¬ p <:+: t := by
  rw [descChain_eq_applyRules]
  constructor
  · intro hfix p hp hin
    have hp' := (descRules_patterns p).mpr hp
    obtain ⟨r, hr, rfl⟩ := List.mem_map.mp hp'
    have := length_applyRules_lt descRules descRules_shrink t ⟨r, hr, hin⟩
    rw [hfix] at this
    exact Nat.lt_irrefl _ this
  · intro h
    apply applyRules_eq_self descRules (fun r hr => (descRules_shrink r hr).1)
    intro r hr
    exact h r.1 ((descRules_patterns r.1).mp (List.mem_map.mpr ⟨r, hr, rfl⟩))

theorem not_prefix_of_clash : ∀ (a b : GoString), clash a b = true →
    ∀ r : GoString, ¬ a <+: b ++ r := by
  intro a
  induction a with
  | nil => intro b h; simp [clash] at h
  | cons x a ih =>
    intro b h r
    cases b with
    | nil => simp [clash] at h
    | cons y b =>
      rw [List.cons_append, List.cons_prefix_cons]
      rintro ⟨hxy, hp⟩
      simp only [clash, Bool.or_eq_true, bne_iff_ne, ne_eq] at h
      rcases h with h | h
      · exact h hxy
      · exact ih b h r hp

theorem ne_of_clash {a b : GoString} (h : clash a b = true) : b ≠ a := by
  intro e
  subst e
  have := not_prefix_of_clash b b h []
  simp at this

theorem removalTags_shape : ∀ t ∈ removalTags, t.head? = some '<' ∧ '<' ∉ t.tail := by
  decide

theorem removalTags_clash :
    ∀ a ∈ removalTags, ∀ b ∈ removalTags, a = b ∨ clash a b = true := by
  decide

theorem removalTags_brackets : ∀ t ∈ removalTags, '<' ∈ t ∧ '>' ∈ t := by
  decide

theorem removalTags_cons {t : GoString} (h : t ∈ removalTags) :
    ∃ tl, t = '<' :: tl ∧ '<' ∉ tl := by
  obtain ⟨h1, h2⟩ := removalTags_shape t h
  cases t with
  | nil => simp at h1
  | cons c tl =>
    simp only [List.head?_cons, Option.some.injEq] at h1
    subst h1
    exact ⟨tl, rfl, by simpa using h2⟩

theorem flatten_cons (p : Piece) (ps : List Piece) : flatten (p :: ps) = p.str ++ flatten ps := by
  simp [flatten]

/-- One tag replacement, read on the pieces of a text: the pieces that are the tag `old` become
the text `new`, everything else stays. -/
theorem replaceFrom_flatten {old new tl : GoString} (hold : old = '<' :: tl) (ps : List Piece)
    (htext : ∀ u, Piece.text u ∈ ps → '<' ∉ u)
    (htag : ∀ t, Piece.tag t ∈ ps → t = old ∨ (clash old t = true ∧ t ∈ removalTags)) :
    replaceFrom old new 0 (flatten ps) = flatten (ps.map (Piece.swap old new)) := by
  have hne : old ≠ [] := by rw [hold]; simp
  induction ps with
  | nil => simp [flatten, replaceFrom]
  | cons p ps ih =>
    have ih' := ih (fun u hu => htext u (List.mem_cons_of_mem _ hu))
      (fun t ht => htag t (List.mem_cons_of_mem _ ht))
    rw [List.map_cons, flatten_cons, flatten_cons]
    cases p with
    | text u =>
      have hu := htext u (by simp)
      simp only [Piece.str, Piece.swap]
      rw [replaceFrom_append_of_not_mem hold u _ hu, ih']
    | tag t =>
      rcases htag t (by simp) with e | ⟨hc, hmem⟩
      · subst e
        simp only [Piece.str, Piece.swap, if_true]
        rw [replaceFrom_append_match hne, ih']
      · obtain ⟨tl', ht, htl'⟩ := removalTags_cons hmem
        have hto : t ≠ old := ne_of_clash hc
        simp only [Piece.str, Piece.swap, if_neg hto]
        have hnp : ¬ old <+: '<' :: (tl' ++ flatten (ps)) := by
          have := not_prefix_of_clash old t hc (flatten ps)
          rwa [ht] at this
        rw [ht, List.cons_append, replaceFrom_cons_no_match hnp,
          replaceFrom_append_of_not_mem hold tl' _ htl', ih']
        rfl

theorem tagRules_shape : ∀ r ∈ tagRules, r.1 ∈ removalTags ∧ '<' ∉ r.2 := by
  decide

/-- The tag replacements, read on the pieces of a text. -/
theorem applyRules_flatten (rs : List (GoString × GoString))
    (hrs : ∀ r ∈ rs, r.1 ∈ removalTags ∧ '<' ∉ r.2) :
    ∀ ps : List Piece, (∀ u, Piece.text u ∈ ps → '<' ∉ u) →
      (∀ t, Piece.tag t ∈ ps → t ∈ removalTags) →
      applyRules rs (flatten ps)
        = flatten (ps.map (fun p => rs.foldl (fun p r => p.swap r.1 r.2) p)) := by
  induction rs with
  | nil => intro ps _ _; simp [applyRules]
  | cons r rs ih =>
    intro ps htext htag
    obtain ⟨hr1, hr2⟩ := hrs r (by simp)
    obtain ⟨tl, hold, _⟩ := removalTags_cons hr1
    have hne : r.1 ≠ r.2 := by
      intro e
      apply hr2
      rw [← e, hold]
      simp
    have hnil : r.1 ≠ [] := by rw [hold]; simp
    rw [applyRules_cons, ReplaceAll_eq_replaceFrom hne hnil,
      replaceFrom_flatten hold ps htext
        (fun t ht => (removalTags_clash r.1 hr1 t (htag t ht)).imp
          (fun e => e.symm) (fun c => ⟨c, htag t ht⟩)),
      ih (fun r hr => hrs r (by simp [hr])), List.map_map]
    · rfl
    · intro u hu
      obtain ⟨p, hp, hpe⟩ := List.mem_map.mp hu
      cases p with
      | text v =>
        simp only [Piece.swap, Piece.text.injEq] at hpe
        subst hpe
        exact htext v hp
      | tag t =>
        simp only [Piece.swap] at hpe
        split at hpe
        · simp only [Piece.text.injEq] at hpe
          subst hpe
          exact hr2
        · simp at hpe
    · intro t ht
      obtain ⟨p, hp, hpe⟩ := List.mem_map.mp ht
      cases p with
      | text v => simp [Piece.swap] at hpe
      | tag t' =>
        simp only [Piece.swap] at hpe
        split at hpe
        · simp at hpe
        · simp only [Piece.tag.injEq] at hpe
          subst hpe
          exact htag t' hp

theorem swaps_text (rs : List (GoString × GoString)) (u : GoString) :
    rs.foldl (fun p r => Piece.swap r.1 r.2 p) (Piece.text u) = Piece.text u := by
  induction rs with
  | nil => rfl
  | cons r rs ih => simpa [Piece.swap] using ih

theorem swaps_tag : ∀ t ∈ removalTags,
    (tagRules.foldl (fun p r => Piece.swap r.1 r.2 p) (Piece.tag t)).str
      = (Piece.tag t).stripped := by
  decide

/-- The tag replacements of `buildDesc` take the tags out of a text whose markup is on the
removal list. -/
theorem applyRules_tagRules (ps : List Piece) (h : OnlyListedTags ps) :
    applyRules tagRules (flatten ps) = stripped ps := by
  rw [applyRules_flatten tagRules tagRules_shape ps
    (fun u hu => (h _ hu).1) (fun t ht => h _ ht)]
  unfold flatten stripped
  rw [List.flatMap_map]
  induction ps with
  | nil => rfl
  | cons p ps ih =>
    rw [List.flatMap_cons, List.flatMap_cons,
      ih (fun p hp => h p (List.mem_cons_of_mem _ hp))]
    congr 1
    cases p with
    | text u => rw [swaps_text]; rfl
    | tag t => exact swaps_tag t (h (Piece.tag t) (by simp))

theorem not_mem_stripped {c : Char} (hc : c ≠ '^') (ps : List Piece)
    (h : ∀ u, Piece.text u ∈ ps → c ∉ u) : c ∉ stripped ps := by
  unfold stripped
  rw [List.mem_flatMap]
  rintro ⟨p, hp, hcp⟩
  cases p with
  | text u => exact h u hp hcp
  | tag t =>
    simp only [Piece.stripped] at hcp
    split at hcp
    · simp at hcp
      exact hc hcp
    · simp at hcp

theorem mem_ReplaceAll {old new s : GoString} {x : Char} (h : x ∈ ReplaceAll s old new) :
    x ∈ s ∨ x ∈ new := by
  unfold ReplaceAll at h
  split at h
  · exact Or.inl h
  · split at h
    · rcases List.mem_append.mp h with h | h
      · exact Or.inr h
      · obtain ⟨c, hc, hx⟩ := List.mem_flatMap.mp h
        rcases List.mem_cons.mp hx with e | hx
        · exact Or.inl (e ▸ hc)
        · exact Or.inr hx
    · exact mem_replaceFrom s 0 h

theorem not_mem_applyRules {c : Char} (rules : List (GoString × GoString))
    (hr : ∀ r ∈ rules, c ∉ r.2) (t : GoString) (ht : c ∉ t) : c ∉ applyRules rules t := by
  induction rules generalizing t with
  | nil => exact ht
  | cons r rs ih =>
    rw [applyRules_cons]
    apply ih (fun r hr' => hr r (by simp [hr']))
    intro hmem
    rcases mem_ReplaceAll hmem with h | h
    · exact ht h
    · exact hr r (by simp) h

theorem prefix_of_prefix_replaceFrom {old new : GoString} (hnew : new ≠ []) :
    ∀ (s P : GoString), (∀ x ∈ new, x ∉ P) →
      P <+: replaceFrom old new 0 s → P <+: s := by
  intro s
  induction s with
  | nil =>
    intro P _ h
    simpa [replaceFrom] using h
  | cons c s ih =>
    intro P hd h
    cases P with
    | nil => exact List.nil_prefix
    | cons p P =>
      rw [replaceFrom] at h
      split at h
      · cases new with
        | nil => exact absurd rfl hnew
        | cons n new =>
          rw [List.cons_append, List.cons_prefix_cons] at h
          exact absurd (by simp [h.1]) (hd n (by simp))
      · rw [List.cons_prefix_cons] at h ⊢
        exact ⟨h.1, ih P (fun x hx hxP => hd x hx (List.mem_cons_of_mem _ hxP)) h.2⟩

theorem infix_of_infix_append {new P X : GoString} (hP : P ≠ []) (hd : ∀ x ∈ new, x ∉ P)
    (h : P <:+: new ++ X) : P <:+: X := by
  induction new with
  | nil => simpa using h
  | cons n new ih =>
    rw [List.cons_append, List.infix_cons_iff] at h
    rcases h with h | h
    · cases P with
      | nil => exact absurd rfl hP
      | cons p P =>
        rw [List.cons_prefix_cons] at h
        exact absurd (by simp [h.1]) (hd n (by simp))
    · exact ih (fun x hx => hd x (List.mem_cons_of_mem _ hx)) h

theorem infix_of_infix_replaceFrom {old new P : GoString} (hold : old ≠ []) (hnew : new ≠ [])
    (hP : P ≠ []) (hd : ∀ x ∈ new, x ∉ P) :
    ∀ (n : Nat) (s : GoString), s.length ≤ n →
      P <:+: replaceFrom old new 0 s → P <:+: s := by
  intro n
  induction n with
  | zero =>
    intro s hs h
    have : s = [] := List.length_eq_zero.mp (by omega)
    subst this
    simpa [replaceFrom] using h
  | succ n ih =>
    intro s hs h
    cases s with
    | nil => simpa [replaceFrom] using h
    | cons c s =>
      have hpos := List.length_pos.mpr hold
      by_cases hp : old <+: c :: s
      · rw [replaceFrom_match hold hp] at h
        have h' := infix_of_infix_append hP hd h
        have hlen : ((c :: s).drop old.length).length ≤ n := by
          rw [List.length_drop]
          simp only [List.length_cons] at hs ⊢
          omega
        exact (ih _ hlen h').trans (List.drop_suffix _ _).isInfix
      · rw [replaceFrom_cons_no_match hp, List.infix_cons_iff] at h
        rcases h with h | h
        · have h2 : P <+: replaceFrom old new 0 (c :: s) := by
            rwa [replaceFrom_cons_no_match hp]
          exact (prefix_of_prefix_replaceFrom hnew _ _ hd h2).isInfix
        · exact List.infix_cons (ih s (by simpa using hs) h)

/-- A replacement whose inserted text shares no character with `P` creates no occurrence
of `P`. -/
theorem not_infix_ReplaceAll {old new P : GoString} (hold : old ≠ []) (hnew : new ≠ [])
    (hP : P ≠ []) (hd : ∀ x ∈ new, x ∉ P) {s : GoString} (h : ¬ P <:+: s) :
    ¬ P <:+: ReplaceAll s old new := by
  by_cases hne : old = new
  · simpa [ReplaceAll, hne] using h
  · rw [ReplaceAll_eq_replaceFrom hne hold]
    exact fun hin => h (infix_of_infix_replaceFrom hold hnew hP hd s.length s (Nat.le_refl _) hin)

theorem not_mem_ReplaceAll {old new s : GoString} {c : Char} (hs : c ∉ s) (hn : c ∉ new) :
    c ∉ ReplaceAll s old new := fun h => (mem_ReplaceAll h).elim hs hn

theorem infix_ReplaceAll_disjoint {old new P : GoString} (hold : old ≠ []) (hnew : new ≠ [])
    (hP : P ≠ []) (hd : ∀ x ∈ new, x ∉ P) {s : GoString} (h : P <:+: ReplaceAll s old new) :
    P <:+: s := by
  by_contra hn
  exact not_infix_ReplaceAll hold hnew hP hd hn h

theorem infix_applyRules_disjoint {P : GoString} (hP : P ≠ [])
    (rules : List (GoString × GoString))
    (hr : ∀ r ∈ rules, r.1 ≠ [] ∧ r.2 ≠ [] ∧ ∀ x ∈ r.2, x ∉ P) :
    ∀ s : GoString, P <:+: applyRules rules s → P <:+: s := by
  induction rules with
  | nil => exact fun s h => h
  | cons r rs ih =>
    intro s h
    rw [applyRules_cons] at h
    obtain ⟨h1, h2, h3⟩ := hr r (by simp)
    exact infix_ReplaceAll_disjoint h1 h2 hP h3
      (ih (fun r' hr' => hr r' (by simp [hr'])) _ h)

/-- Where a decoded character `c` begins a text found at the head of the output, the entity
`old` stood in the input, followed by the rest of that text. -/
theorem prefix_decode_head {old : GoString} {c : Char} (hold : old ≠ []) (s : GoString)
    (hs : c ∉ s) (P : GoString) (hP : c ∉ P) (h : (c :: P) <+: replaceFrom old [c] 0 s) :
    (old ++ P) <+: s := by
  cases s with
  | nil => simp [replaceFrom] at h
  | cons d s =>
    by_cases hp : old <+: d :: s
    · rw [replaceFrom_match hold hp, List.singleton_append, List.cons_prefix_cons] at h
      have h' := prefix_of_prefix_replaceFrom (by simp) _ P
        (fun x hx => by rw [List.mem_singleton.mp hx]; exact hP) h.2
      have e := List.prefix_iff_eq_append.mp hp
      rw [← e]
      exact (List.prefix_append_right_inj old).mpr h'
    · rw [replaceFrom_cons_no_match hp, List.cons_prefix_cons] at h
      exact absurd (by simp [h.1]) hs

theorem infix_decode_head {old P : GoString} {c : Char} (hold : old ≠ []) (hP : c ∉ P) :
    ∀ (n : Nat) (s : GoString), s.length ≤ n → c ∉ s →
      (c :: P) <:+: replaceFrom old [c] 0 s → (old ++ P) <:+: s := by
  intro n
  induction n with
  | zero =>
    intro s hs _ h
    have : s = [] := List.length_eq_zero.mp (by omega)
    subst this
    simp [replaceFrom] at h
  | succ n ih =>
    intro s hs hc h
    cases s with
    | nil => simp [replaceFrom] at h
    | cons d s =>
      have hpos := List.length_pos.mpr hold
      have hcs : c ∉ s := fun hm => hc (List.mem_cons_of_mem _ hm)
      by_cases hp : old <+: d :: s
      · have hR := @replaceFrom_match old [c] hold (d :: s) hp
        rw [hR, List.singleton_append, List.infix_cons_iff] at h
        rcases h with h | h
        · refine (prefix_decode_head hold (d :: s) hc P hP ?_).isInfix
          rw [hR]
          exact h
        · have hlen : ((d :: s).drop old.length).length ≤ n := by
            rw [List.length_drop]
            simp only [List.length_cons] at hs ⊢
            omega
          have hcd : c ∉ (d :: s).drop old.length :=
            fun hm => hc (List.mem_of_mem_drop hm)
          exact (ih _ hlen hcd h).trans (List.drop_suffix _ _).isInfix
      · rw [replaceFrom_cons_no_match hp, List.infix_cons_iff] at h
        rcases h with h | h
        · rw [List.cons_prefix_cons] at h
          exact absurd (by simp [h.1]) hc
        · exact List.infix_cons (ih s (by simpa using hs) hcs h)

/-- Where a decoded character `c` ends a text found at the head of the output, the entity
`old` stood in the input, after the rest of that text. -/
theorem prefix_decode_last {old : GoString} {c : Char} (hold : old ≠ []) :
    ∀ (s : GoString), c ∉ s → ∀ P : GoString, c ∉ P →
      (P ++ [c]) <+: replaceFrom old [c] 0 s → (P ++ old) <+: s := by
  intro s
  induction s with
  | nil =>
    intro _ P _ h
    simp [replaceFrom] at h
  | cons d s ih =>
    intro hs P hP h
    have hss : c ∉ s := fun hm => hs (List.mem_cons_of_mem _ hm)
    by_cases hp : old <+: d :: s
    · rw [replaceFrom_match hold hp, List.singleton_append] at h
      cases P with
      | nil => simpa using hp
      | cons p P =>
        rw [List.cons_append, List.cons_prefix_cons] at h
        exact absurd (by simp [h.1]) hP
    · rw [replaceFrom_cons_no_match hp] at h
      cases P with
      | nil =>
        rw [List.nil_append, List.cons_prefix_cons] at h
        exact absurd (by simp [h.1]) hs
      | cons p P =>
        rw [List.cons_append, List.cons_prefix_cons] at h
        rw [List.cons_append, List.cons_prefix_cons]
        exact ⟨h.1, ih hss P (fun hm => hP (List.mem_cons_of_mem _ hm)) h.2⟩

theorem infix_decode_last {old P : GoString} {c : Char} (hold : old ≠ []) (hP : c ∉ P) :
    ∀ (n : Nat) (s : GoString), s.length ≤ n → c ∉ s →
      (P ++ [c]) <:+: replaceFrom old [c] 0 s → (P ++ old) <:+: s := by
  intro n
  induction n with
  | zero =>
    intro s hs _ h
    have : s = [] := List.length_eq_zero.mp (by omega)
    subst this
    simp [replaceFrom] at h
  | succ n ih =>
    intro s hs hc h
    cases s with
    | nil => simp [replaceFrom] at h
    | cons d s =>
      have hpos := List.length_pos.mpr hold
      have hcs : c ∉ s := fun hm => hc (List.mem_cons_of_mem _ hm)
      by_cases hp : old <+: d :: s
      · have hR := @replaceFrom_match old [c] hold (d :: s) hp
        rw [hR, List.singleton_append, List.infix_cons_iff] at h
        rcases h with h | h
        · refine (prefix_decode_last hold (d :: s) hc P hP ?_).isInfix
          rw [hR]
          exact h
        · have hlen : ((d :: s).drop old.length).length ≤ n := by
            rw [List.length_drop]
            simp only [List.length_cons] at hs ⊢
            omega
          have hcd : c ∉ (d :: s).drop old.length :=
            fun hm => hc (List.mem_of_mem_drop hm)
          exact (ih _ hlen hcd h).trans (List.drop_suffix _ _).isInfix
      · have hR := @replaceFrom_cons_no_match old [c] d s hp
        rw [hR, List.infix_cons_iff] at h
        rcases h with h | h
        · refine (prefix_decode_last hold (d :: s) hc P hP ?_).isInfix
          rw [hR]
          exact h
        · exact List.infix_cons (ih s (by simpa using hs) hcs h)

theorem removalTags_escaped : ∀ t ∈ removalTags,
    t = '<' :: (t.tail.dropLast ++ ['>']) ∧
      escaped t = ("&lt;".toList ++ t.tail.dropLast) ++ "&gt;".toList ∧
      '<' ∉ t.tail.dropLast ++ ['>'] ∧ '>' ∉ "&lt;".toList ++ t.tail.dropLast ∧
      ' ' ∉ escaped t ∧ '"' ∉ t ∧ '-' ∉ t ∧ '\n' ∉ t ∧ ∀ x ∈ "'".toList, x ∉ t := by
  decide

/-- A listed tag in the output of the entity phase was written in the input with its angle
brackets as entities. -/
theorem escaped_of_listed_tag (s : GoString) (h1 : '<' ∉ s) (h2 : '>' ∉ s) (t : GoString)
    (ht : t ∈ removalTags) (hin : t <:+: applyRules entityRules s) : escaped t <:+: s := by
  obtain ⟨e1, e2, f1, f2, f3, g1, g2, g3, g4⟩ := removalTags_escaped t ht
  have e : applyRules entityRules s
      = applyRules [("&quot;".toList, "\"".toList), ("&minus;".toList, "-".toList),
          ("&#39;".toList, "'".toList), ("\n\n".toList, "\n".toList)]
        (ReplaceAll (ReplaceAll (ReplaceAll s "&nbsp;".toList " ".toList)
          "&gt;".toList ">".toList) "&lt;".toList "<".toList) := rfl
  have htne : t ≠ [] := by rw [e1]; simp
  rw [e] at hin
  have a3 := infix_applyRules_disjoint htne _ (by
    intro r hr
    simp only [List.mem_cons, List.mem_singleton, List.not_mem_nil, or_false] at hr
    rcases hr with rfl | rfl | rfl | rfl
    · exact ⟨by decide, by decide, fun x hx => by rw [List.mem_singleton.mp hx]; exact g1⟩
    · exact ⟨by decide, by decide, fun x hx => by rw [List.mem_singleton.mp hx]; exact g2⟩
    · exact ⟨by decide, by decide, g4⟩
    · exact ⟨by decide, by decide, fun x hx => by rw [List.mem_singleton.mp hx]; exact g3⟩) _ hin
  have c1 : '<' ∉ ReplaceAll s "&nbsp;".toList " ".toList := not_mem_ReplaceAll h1 (by decide)
  have c2 : '<' ∉ ReplaceAll (ReplaceAll s "&nbsp;".toList " ".toList) "&gt;".toList ">".toList :=
    not_mem_ReplaceAll c1 (by decide)
  have d1 : '>' ∉ ReplaceAll s "&nbsp;".toList " ".toList := not_mem_ReplaceAll h2 (by decide)
  rw [ReplaceAll_eq_replaceFrom (by decide) (by decide), e1] at a3
  have a2 := @infix_decode_head "&lt;".toList _ _ (by decide) f1 _ _ (Nat.le_refl _) c2 a3
  rw [ReplaceAll_eq_replaceFrom (by decide) (by decide), ← List.append_assoc] at a2
  have a1 := @infix_decode_last "&gt;".toList _ _ (by decide) f2 _ _ (Nat.le_refl _) d1 a2
  rw [← e2] at a1
  have hene : escaped t ≠ [] := by rw [e2]; simp
  exact infix_ReplaceAll_disjoint (by decide) (by decide) hene
    (fun x hx => by rw [List.mem_singleton.mp hx]; exact f3) a1

/-- On a text whose markup is on the removal list, a listed tag is left in the output only when
the text without its tags holds that tag in escaped form. -/
theorem descChain_listed_tag (ps : List Piece) (h : OnlyListedTags ps) (t : GoString)
    (ht : t ∈ removalTags) (hin : t <:+: descChain (flatten ps)) :
    escaped t <:+: stripped ps := by
  rw [descChain_eq_applyRules, descRules, applyRules_append, applyRules_tagRules ps h] at hin
  exact escaped_of_listed_tag _
    (not_mem_stripped (by decide) ps (fun u hu => (h _ hu).1))
    (not_mem_stripped (by decide) ps (fun u hu => (h _ hu).2)) t ht hin

/-! ## Lemmas on template rendering -/

theorem renderFile_applyRules (questionTemplate desc link code packageName : GoString) :
    renderFile questionTemplate desc link code packageName =
      applyRules
        [(TEMPLATE_QUESTION_DESCRIPTION, desc), (TEMPLATE_QUESTION_LINK, link),
         (TEMPLATE_CODE, code), (TEMPLATE_PACKAGE_NAME, packageName)]
        questionTemplate := rfl

theorem templateText_cons (p : TPiece) (ps : List TPiece) :
    templateText (p :: ps) = p.str ++ templateText ps := by
  simp [templateText]

theorem Placeholder.mem_all (k : Placeholder) : k ∈ Placeholder.all := by
  cases k <;> decide

theorem token_shape : ∀ k ∈ Placeholder.all,
    k.token = '_' :: '_' :: k.token.drop 2 ∧
      k.token.drop (k.token.length - 2) = ['_', '_'] ∧ 2 ≤ k.token.length := by
  decide

theorem token_third : ∀ k ∈ Placeholder.all,
    k.token.drop 2 ≠ [] ∧ (k.token.drop 2).head? ≠ some '_' := by
  decide

theorem token_interior : ∀ k ∈ Placeholder.all, ∀ k' ∈ Placeholder.all, k' ≠ k →
    ∀ i < k'.token.length - 2, clash k.token (k'.token.drop i) = true := by
  decide

/-- A replacement passes over a stretch of text in which no occurrence of the pattern begins. -/
theorem replaceFrom_append_skip {old new : GoString} (u r : GoString)
    (h : ∀ i, i < u.length → ¬ old <+: u.drop i ++ r) :
    replaceFrom old new 0 (u ++ r) = u ++ replaceFrom old new 0 r := by
  induction u with
  | nil => rfl
  | cons c u ih =>
    have h0 : ¬ old <+: c :: (u ++ r) := by simpa using h 0 (by simp)
    have hs : ∀ i, i < u.length → ¬ old <+: u.drop i ++ r := by
      intro i hi
      simpa using h (i + 1) (by simpa using hi)
    rw [List.cons_append, replaceFrom_cons_no_match h0, ih hs]
    rfl

theorem token_start : ∀ k ∈ Placeholder.all,
    '_' :: '_' :: (k.token.drop 2).take 1 ∈ tokenStarts := by
  decide

/-- In a template whose literal text does not begin with an underscore, an underscore at the
head of the text begins a token: the next character is an underscore too. -/
theorem hole_start (ps : List TPiece) (hlit : ∀ u, TPiece.lit u ∈ ps → u.head? ≠ some '_') :
    ∀ (c : Char) (w : GoString), ('_' :: c :: w) <+: templateText ps → c = '_' := by
  induction ps with
  | nil =>
    intro c w h
    simp [templateText] at h
  | cons p ps ih =>
    have ih' := ih (fun u hu => hlit u (List.mem_cons_of_mem _ hu))
    intro c w h
    rw [templateText_cons] at h
    cases p with
    | hole k =>
      rw [TPiece.str, (token_shape k (Placeholder.mem_all k)).1] at h
      simp only [List.cons_append, List.cons_prefix_cons] at h
      exact h.2.1
    | lit u =>
      have hu := hlit u (by simp)
      cases u with
      | nil => exact ih' c w (by simpa [TPiece.str] using h)
      | cons d u =>
        simp only [TPiece.str, List.cons_append, List.cons_prefix_cons] at h
        exact absurd (by rw [← h.1]; rfl) hu

/-- A replacement of a token passes over a safe text: no occurrence of the token begins in
it. -/
theorem replaceFrom_append_safe (k : Placeholder) (v : GoString) (r : GoString)
    (hr : ∀ (c : Char) (w : GoString), ('_' :: c :: w) <+: r → c = '_') :
    ∀ u : GoString, ¬ ['_', '_'] <:+ u → (∀ p ∈ tokenStarts, ¬ p <:+: u) →
      replaceFrom k.token v 0 (u ++ r) = u ++ replaceFrom k.token v 0 r := by
  obtain ⟨hk, _, _⟩ := token_shape k (Placeholder.mem_all k)
  obtain ⟨h3, h4⟩ := token_third k (Placeholder.mem_all k)
  have hst := token_start k (Placeholder.mem_all k)
  intro u
  induction u with
  | nil => intro _ _; rfl
  | cons c u ih =>
    intro h1 h2
    have hnp : ¬ k.token <+: c :: (u ++ r) := by
      intro hp
      cases hdrop : k.token.drop 2 with
      | nil => exact h3 hdrop
      | cons x t =>
        rw [hdrop] at h4 hst
        rw [hk, hdrop, List.cons_prefix_cons] at hp
        obtain ⟨hc, hp⟩ := hp
        cases u with
        | nil =>
          have := hr x t (by simpa using hp)
          exact h4 (by simp [this])
        | cons d u =>
          rw [List.cons_append, List.cons_prefix_cons] at hp
          obtain ⟨hd, hp⟩ := hp
          cases u with
          | nil =>
            apply h1
            rw [← hc, ← hd]
          | cons e u =>
            rw [List.cons_append, List.cons_prefix_cons] at hp
            apply h2 _ hst
            rw [← hc, ← hd, ← hp.1]
            exact ⟨[], u, rfl⟩
    rw [List.cons_append, replaceFrom_cons_no_match hnp,
      ih (fun h => h1 (h.trans (List.suffix_cons c u)))
        (fun p hp h => h2 p hp (List.infix_cons h))]
    rfl

/-- One substitution, read on the pieces of a template. -/
theorem replaceFrom_templateText (k : Placeholder) (v : GoString) (ps : List TPiece)
    (hlit : ∀ u, TPiece.lit u ∈ ps → Safe u) (hclear : Clear k ps) :
    replaceFrom k.token v 0 (templateText ps) = templateText (ps.map (TPiece.fill k v)) := by
  obtain ⟨hk, _, _⟩ := token_shape k (Placeholder.mem_all k)
  have hne : k.token ≠ [] := by rw [hk]; simp
  induction ps with
  | nil => simp [templateText, replaceFrom]
  | cons p ps ih =>
    have hlit' : ∀ u, TPiece.lit u ∈ ps → Safe u :=
      fun u hu => hlit u (List.mem_cons_of_mem _ hu)
    have hstart := hole_start ps (fun u hu => (hlit' u hu).1)
    rw [List.map_cons, templateText_cons, templateText_cons]
    cases p with
    | lit u =>
      obtain ⟨_, hu2, hu3⟩ := hlit u (by simp)
      simp only [TPiece.str, TPiece.fill]
      rw [replaceFrom_append_safe k v _ hstart u hu2 hu3, ih hlit' hclear]
    | hole k' =>
      obtain ⟨hc, hclear'⟩ := hclear
      by_cases e : k' = k
      · subst e
        simp only [TPiece.str, TPiece.fill, if_true]
        rw [replaceFrom_append_match hne, ih hlit' hclear']
      · have hc' : ¬ k.token.drop 2 <+: templateText ps := hc.resolve_left e
        obtain ⟨hk', hend, hlen⟩ := token_shape k' (Placeholder.mem_all k')
        simp only [TPiece.str, TPiece.fill, if_neg e]
        rw [replaceFrom_append_skip k'.token _ ?_, ih hlit' hclear']
        intro i hi
        by_cases hi2 : i < k'.token.length - 2
        · exact not_prefix_of_clash _ _
            (token_interior k (Placeholder.mem_all k) k' (Placeholder.mem_all k') e i hi2) _
        · by_cases hi1 : i = k'.token.length - 2
          · rw [hi1, hend, hk]
            simp only [List.cons_append, List.nil_append, List.cons_prefix_cons, true_and]
            exact hc'
          · have hi0 : i = (k'.token.length - 2) + 1 := by omega
            have hd : k'.token.drop i = ['_'] := by
              rw [hi0, ← List.drop_drop, hend]
              rfl
            rw [hd, hk]
            simp only [List.cons_append, List.nil_append, List.cons_prefix_cons, true_and]
            intro hp
            obtain ⟨h3, h4⟩ := token_third k (Placeholder.mem_all k)
            cases hdrop : k.token.drop 2 with
            | nil => exact h3 hdrop
            | cons c w =>
              rw [hdrop] at hp h4
              have := hstart c w hp
              exact h4 (by simp [this])

theorem lit_fill {k : Placeholder} {v : GoString} {P : GoString → Prop} (hv : P v)
    (ps : List TPiece) (hlit : ∀ u, TPiece.lit u ∈ ps → P u) :
    ∀ u, TPiece.lit u ∈ ps.map (TPiece.fill k v) → P u := by
  intro u hu
  obtain ⟨p, hp, hpe⟩ := List.mem_map.mp hu
  cases p with
  | lit x =>
    simp only [TPiece.fill, TPiece.lit.injEq] at hpe
    subst hpe
    exact hlit x hp
  | hole k' =>
    simp only [TPiece.fill] at hpe
    split at hpe
    · simp only [TPiece.lit.injEq] at hpe
      subst hpe
      exact hv
    · cases hpe

theorem hole_fill {k k' : Placeholder} {v : GoString} (ps : List TPiece)
    (h : TPiece.hole k' ∈ ps.map (TPiece.fill k v)) : k' ≠ k ∧ TPiece.hole k' ∈ ps := by
  obtain ⟨p, hp, hpe⟩ := List.mem_map.mp h
  cases p with
  | lit x => simp [TPiece.fill] at hpe
  | hole k'' =>
    simp only [TPiece.fill] at hpe
    split at hpe
    · cases hpe
    · rename_i hne
      simp only [TPiece.hole.injEq] at hpe
      subst hpe
      exact ⟨hne, hp⟩

/-- Where only placeholders of `k` are left, the condition `Clear k` holds. -/
theorem clear_of_only (k : Placeholder) (ps : List TPiece)
    (h : ∀ k', TPiece.hole k' ∈ ps → k' = k) : Clear k ps := by
  induction ps with
  | nil => trivial
  | cons p ps ih =>
    have ih' := ih (fun k' hk' => h k' (List.mem_cons_of_mem _ hk'))
    cases p with
    | lit u => exact ih'
    | hole k' => exact ⟨Or.inl (h k' (by simp)), ih'⟩

/-- One substitution of `Create`, read on the pieces of a template. -/
theorem ReplaceAll_templateText (k : Placeholder) (v : GoString) (hv : v.head? ≠ some '_')
    (ps : List TPiece) (hlit : ∀ u, TPiece.lit u ∈ ps → Safe u) (hclear : Clear k ps) :
    ReplaceAll (templateText ps) k.token v = templateText (ps.map (TPiece.fill k v)) := by
  obtain ⟨hk, _, _⟩ := token_shape k (Placeholder.mem_all k)
  have hne : k.token ≠ [] := by rw [hk]; simp
  have hvk : k.token ≠ v := by
    intro e
    apply hv
    rw [← e, hk]
    rfl
  rw [ReplaceAll_eq_replaceFrom hvk hne, replaceFrom_templateText k v ps hlit hclear]

theorem start_infix_token (k : Placeholder) :
    ∃ p ∈ tokenStarts, p <:+: k.token := by
  refine ⟨_, token_start k (Placeholder.mem_all k), ?_⟩
  obtain ⟨hk, _, _⟩ := token_shape k (Placeholder.mem_all k)
  obtain ⟨h3, _⟩ := token_third k (Placeholder.mem_all k)
  cases hdrop : k.token.drop 2 with
  | nil => exact absurd hdrop h3
  | cons x t =>
    refine ⟨[], t, ?_⟩
    rw [hk, hdrop]
    rfl

theorem no_start_append {p s r : GoString} (hp : p ∈ tokenStarts) (hs : ¬ p <:+: s)
    (hs2 : ¬ ['_', '_'] <:+ s) (hr0 : r.head? ≠ some '_') (hr : ¬ p <:+: r) :
    ¬ p <:+: s ++ r := by
  have hform : ∃ x, p = ['_', '_', x] := by
    simp only [tokenStarts, List.mem_cons, List.mem_singleton, List.not_mem_nil, or_false] at hp
    rcases hp with rfl | rfl | rfl
    · exact ⟨'Q', rfl⟩
    · exact ⟨'P', rfl⟩
    · exact ⟨'C', rfl⟩
  obtain ⟨x, rfl⟩ := hform
  induction s with
  | nil => simpa using hr
  | cons c s ih =>
    rw [List.cons_append, List.infix_cons_iff]
    rintro (h | h)
    · rw [List.cons_prefix_cons] at h
      obtain ⟨hc, h⟩ := h
      cases s with
      | nil =>
        cases r with
        | nil => simp at h
        | cons y r =>
          simp only [List.nil_append, List.cons_prefix_cons] at h
          exact hr0 (by rw [← h.1]; rfl)
      | cons d s =>
        rw [List.cons_append, List.cons_prefix_cons] at h
        obtain ⟨hd, h⟩ := h
        cases s with
        | nil =>
          apply hs2
          rw [← hc, ← hd]
        | cons e s =>
          rw [List.cons_append, List.cons_prefix_cons] at h
          apply hs
          rw [← hc, ← hd, ← h.1]
          exact ⟨[], s, rfl⟩
    · exact ih (fun hsuf => hs2 (hsuf.trans (List.suffix_cons c s)))
        (fun hin => hs (List.infix_cons hin)) h

theorem head_append_ne {s r : GoString} {c : Char} (hs : s.head? ≠ some c)
    (hr : r.head? ≠ some c) : (s ++ r).head? ≠ some c := by
  cases s with
  | nil => simpa using hr
  | cons d s => simpa using hs

/-- A text put together from safe segments holds no beginning of a placeholder token. -/
theorem no_start_flatMap {α : Type} (f : α → GoString) (l : List α)
    (h : ∀ x ∈ l, Safe (f x)) :
    (∀ p ∈ tokenStarts, ¬ p <:+: l.flatMap f) ∧ (l.flatMap f).head? ≠ some '_' := by
  induction l with
  | nil =>
    refine ⟨?_, by simp⟩
    intro p hp hin
    simp only [List.flatMap_nil, List.infix_nil] at hin
    subst hin
    simp [tokenStarts] at hp
  | cons x l ih =>
    obtain ⟨h1, h2⟩ := ih (fun y hy => h y (List.mem_cons_of_mem _ hy))
    obtain ⟨hx0, hx1, hx2⟩ := h x (by simp)
    rw [List.flatMap_cons]
    exact ⟨fun p hp => no_start_append hp (hx2 p hp) hx1 h2 (h1 p hp), head_append_ne hx0 h2⟩

theorem fill_all_str (desc link code packageName : GoString) (p : TPiece) :
    (TPiece.fill Placeholder.packageName packageName
      (TPiece.fill Placeholder.code code
        (TPiece.fill Placeholder.link link
          (TPiece.fill Placeholder.description desc p)))).str
      = p.value desc link code packageName := by
  cases p with
  | lit u => rfl
  | hole k => cases k <;> rfl

/-- The four substitutions of `Create` on a template cut into pieces: when the literal text and
the four values are safe, and at each substitution no other placeholder is directly followed by
the token without its leading underscores, every placeholder is replaced by its value and
nothing else changes. -/
theorem renderFile_eq_filled (ps : List TPiece) (desc link code packageName : GoString)
    (hlit : ∀ u, TPiece.lit u ∈ ps → Safe u) (hdesc : Safe desc) (hlink : Safe link)
    (hcode : Safe code) (hpkg : Safe packageName)
    (hc1 : Clear Placeholder.description ps)
    (hc2 : Clear Placeholder.link (ps.map (TPiece.fill Placeholder.description desc)))
    (hc3 : Clear Placeholder.code
      ((ps.map (TPiece.fill Placeholder.description desc)).map
        (TPiece.fill Placeholder.link link))) :
    renderFile (templateText ps) desc link code packageName
      = filled ps desc link code packageName := by
  have h1 := ReplaceAll_templateText Placeholder.description desc hdesc.1 ps hlit hc1
  have hlit1 := @lit_fill Placeholder.description desc Safe hdesc ps hlit
  have h2 := ReplaceAll_templateText Placeholder.link link hlink.1 _ hlit1 hc2
  have hlit2 := @lit_fill Placeholder.link link Safe hlink _ hlit1
  have h3 := ReplaceAll_templateText Placeholder.code code hcode.1 _ hlit2 hc3
  have hlit3 := @lit_fill Placeholder.code code Safe hcode _ hlit2
  have hc4 : Clear Placeholder.packageName
      (((ps.map (TPiece.fill Placeholder.description desc)).map
        (TPiece.fill Placeholder.link link)).map (TPiece.fill Placeholder.code code)) := by
    apply clear_of_only
    intro k' hk'
    obtain ⟨n3, hk'⟩ := hole_fill _ hk'
    obtain ⟨n2, hk'⟩ := hole_fill _ hk'
    obtain ⟨n1, _⟩ := hole_fill _ hk'
    cases k' with
    | description => exact absurd rfl n1
    | link => exact absurd rfl n2
    | code => exact absurd rfl n3
    | packageName => rfl
  have h4 := ReplaceAll_templateText Placeholder.packageName packageName hpkg.1 _ hlit3 hc4
  simp only [Placeholder.token] at h1 h2 h3 h4
  simp only [renderFile, h1, h2, h3, h4]
  simp only [templateText, filled, List.map_map, List.flatMap_map]
  congr 1
  funext p
  exact fill_all_str desc link code packageName p

/-! ## The description sanitizer -/

/-- C2, as stated, fails: in `<p>&lt;b&gt;</p>` the only tags are `<p>` and `</p>`, both on the
removal list, and `buildDesc` returns `<b>`, a tag of the removal list, decoded from the escaped
text. -/
theorem buildDesc_listed_tags_counterexample :
    OnlyListedTags
        [Piece.tag "<p>".toList, Piece.text "&lt;b&gt;".toList, Piece.tag "</p>".toList] ∧
      flatten [Piece.tag "<p>".toList, Piece.text "&lt;b&gt;".toList, Piece.tag "</p>".toList]
        = "<p>&lt;b&gt;</p>".toList ∧
      buildDesc (questionFileOf 1 "two-sum".toList "<p>&lt;b&gt;</p>".toList [])
        = .ok "<b>".toList ∧
      "<b>".toList ∈ removalTags ∧ "<b>".toList <:+: "<b>".toList := by
  refine ⟨by decide, by decide, by decide, by decide, List.infix_refl _⟩

/-- C2, amended: for an input made of tags from the removal list and of text without angle
brackets, such that the text left when the tags are taken out holds no listed tag in escaped
form (`&lt;b&gt;` for the tag `<b>`), `buildDesc` returns a text that contains none of the
listed tags. -/
theorem buildDesc_strips_listed_tags (ps : List Piece) (f : QuestionFile)
    (detail : QuestionDetailRepo) (hf : f.Question.Detail = some detail)
    (hc : detail.TranslatedContent = flatten ps) (h : OnlyListedTags ps)
    (hesc : ∀ t ∈ removalTags, ¬ escaped t <:+: stripped ps) :
    ∃ out, buildDesc f = .ok out ∧ ∀ t ∈ removalTags, ¬ t <:+: out := by
  refine ⟨descChain (flatten ps), ?_,
    fun t ht hin => hesc t ht (descChain_listed_tag ps h t ht hin)⟩
  simp [buildDesc, hf, hc]

/-- C2 at the input of the specification, where `<p>Given <b>nums</b></p>` becomes
`Given nums`, and at a text with escaped comparison signs and an arrow between listed tags. -/
theorem buildDesc_strips_listed_tags_witness :
    buildDesc (questionFileOf 1 "two-sum".toList "<p>Given <b>nums</b></p>".toList [])
        = .ok "Given nums".toList ∧
      buildDesc (questionFileOf 1 "two-sum".toList "<p>1 &lt;= n, 1-&gt;2</p>".toList [])
        = .ok "1 <= n, 1->2".toList ∧
      (∃ out, buildDesc (questionFileOf 1 "two-sum".toList "<p>Given <b>nums</b></p>".toList [])
        = .ok out ∧ ∀ t ∈ removalTags, ¬ t <:+: out) ∧
      ∃ out, buildDesc (questionFileOf 1 "two-sum".toList "<p>1 &lt;= n, 1-&gt;2</p>".toList [])
        = .ok out ∧ ∀ t ∈ removalTags, ¬ t <:+: out :=
  ⟨by decide, by decide,
    buildDesc_strips_listed_tags
      [Piece.tag "<p>".toList, Piece.text "Given ".toList, Piece.tag "<b>".toList,
        Piece.text "nums".toList, Piece.tag "</b>".toList, Piece.tag "</p>".toList]
      (questionFileOf 1 "two-sum".toList "<p>Given <b>nums</b></p>".toList []) _ rfl
      (by decide) (by decide) (by decide),
    buildDesc_strips_listed_tags
      [Piece.tag "<p>".toList, Piece.text "1 &lt;= n, 1-&gt;2".toList, Piece.tag "</p>".toList]
      (questionFileOf 1 "two-sum".toList "<p>1 &lt;= n, 1-&gt;2</p>".toList []) _ rfl
      (by decide) (by decide) (by decide)⟩

/-- C3, as stated, fails: four newlines in a row are collapsed to two by one pass and to one by
a second pass. -/
theorem descChain_idempotent_counterexample :
    descChain "a\n\n\n\nb".toList = "a\n\nb".toList ∧
      descChain (descChain "a\n\n\n\nb".toList) = "a\nb".toList ∧
      descChain (descChain "a\n\n\n\nb".toList) ≠ descChain "a\n\n\n\nb".toList := by
  decide

/-- C3, amended: a second pass of the replacement chain of `buildDesc` changes nothing exactly
when the output of the first pass contains no occurrence of any pattern of the chain. -/
theorem descChain_idempotent_iff (t : GoString) :
    descChain (descChain t) = descChain t ↔
      ∀ p ∈ sanitizerPatterns, ¬ p <:+: descChain t :=
  descChain_fixed_iff (descChain t)

/-- C10: an input that contains no occurrence of any pattern of the sanitizer (the listed tags,
the six entities, a doubled newline) is returned by `buildDesc` unchanged. -/
theorem buildDesc_passthrough (f : QuestionFile) (detail : QuestionDetailRepo)
    (hf : f.Question.Detail = some detail)
    (h : ∀ p ∈ sanitizerPatterns, ¬ p <:+: detail.TranslatedContent) :
    buildDesc f = .ok detail.TranslatedContent := by
  simp [buildDesc, hf, (descChain_fixed_iff detail.TranslatedContent).mpr h]

/-- C10 at a text with markup and entities outside the fixed list. -/
theorem buildDesc_passthrough_witness :
    buildDesc (questionFileOf 1 "two-sum".toList "<div>a &amp; b<br/>\n</div>".toList [])
      = .ok "<div>a &amp; b<br/>\n</div>".toList :=
  buildDesc_passthrough _ _ rfl (by decide)

/-! ## Catalog lookup, starter code and package name -/

theorem getQuestionStatByID_go_none (q : Question) (l : List StatStatusPair) :
    getQuestionStatByID.go q l = none ↔ ∀ x ∈ l, x.Stat.QuestionID ≠ q.ID := by
  induction l with
  | nil => simp [getQuestionStatByID.go]
  | cons x l ih =>
    by_cases h : x.Stat.QuestionID = q.ID
    · simp [getQuestionStatByID.go, h]
    · simp [getQuestionStatByID.go, h, ih]

theorem getQuestionStatByID_go_first (q : Question) (pre : List StatStatusPair)
    (x : StatStatusPair) (post : List StatStatusPair)
    (hpre : ∀ y ∈ pre, y.Stat.QuestionID ≠ q.ID) (hx : x.Stat.QuestionID = q.ID) :
    getQuestionStatByID.go q (pre ++ x :: post) = some x.Stat := by
  induction pre with
  | nil => simp [getQuestionStatByID.go, hx]
  | cons y pre ih =>
    have hy := hpre y (by simp)
    simp only [List.cons_append, getQuestionStatByID.go, if_neg hy]
    exact ih (fun z hz => hpre z (by simp [hz]))

theorem exists_first_match {α : Type} (p : α → Prop) [DecidablePred p] (l : List α)
    (h : ∃ x ∈ l, p x) :
    ∃ pre x post, l = pre ++ x :: post ∧ (∀ y ∈ pre, ¬ p y) ∧ p x := by
  induction l with
  | nil => simp at h
  | cons a l ih =>
    by_cases ha : p a
    · exact ⟨[], a, l, rfl, by simp, ha⟩
    · have : ∃ x ∈ l, p x := by
        obtain ⟨x, hx, hpx⟩ := h
        rcases List.mem_cons.mp hx with e | hx
        · subst e; exact absurd hpx ha
        · exact ⟨x, hx, hpx⟩
      obtain ⟨pre, x, post, hl, hpre, hx⟩ := ih this
      refine ⟨a :: pre, x, post, by simp [hl], ?_, hx⟩
      intro y hy
      rcases List.mem_cons.mp hy with e | hy
      · subst e; exact ha
      · exact hpre y hy

/-- C1: `getQuestionStatByID` returns nil exactly when no entry of the listing has the id;
otherwise it returns the first entry, in listing order, whose id matches, which is the only such
entry when the ids of the listing are pairwise distinct; and `Build` answers a nil result with
`ErrCannotFindQuestionByID`, leaving the question as it was. -/
theorem getQuestionStatByID_spec (q : Question) (questions : Questions) :
    (getQuestionStatByID q questions = none ↔
        ∀ x ∈ questions.StatStatusPairs, x.Stat.QuestionID ≠ q.ID) ∧
    ((∃ x ∈ questions.StatStatusPairs, x.Stat.QuestionID = q.ID) →
        ∃ pre x post, questions.StatStatusPairs = pre ++ x :: post ∧
          (∀ y ∈ pre, y.Stat.QuestionID ≠ q.ID) ∧ x.Stat.QuestionID = q.ID ∧
          getQuestionStatByID q questions = some x.Stat) ∧
    (questions.StatStatusPairs.Pairwise
          (fun a b => a.Stat.QuestionID ≠ b.Stat.QuestionID) →
        ∀ x ∈ questions.StatStatusPairs, x.Stat.QuestionID = q.ID →
          getQuestionStatByID q questions = some x.Stat ∧
          ∀ y ∈ questions.StatStatusPairs, y.Stat.QuestionID = q.ID → y = x) ∧
    (∀ net : Catalog, net.getAllQuestion = .ok questions →
        getQuestionStatByID q questions = none →
        Build net q = (q, some Error.ErrCannotFindQuestionByID)) := by
  have first : (∃ x ∈ questions.StatStatusPairs, x.Stat.QuestionID = q.ID) →
      ∃ pre x post, questions.StatStatusPairs = pre ++ x :: post ∧
        (∀ y ∈ pre, y.Stat.QuestionID ≠ q.ID) ∧ x.Stat.QuestionID = q.ID ∧
        getQuestionStatByID q questions = some x.Stat := by
    intro h
    obtain ⟨pre, x, post, hl, hpre, hx⟩ :=
      exists_first_match (fun x : StatStatusPair => x.Stat.QuestionID = q.ID) _ h
    refine ⟨pre, x, post, hl, hpre, hx, ?_⟩
    unfold getQuestionStatByID
    rw [hl]
    exact getQuestionStatByID_go_first q pre x post hpre hx
  refine ⟨getQuestionStatByID_go_none q _, first, ?_, ?_⟩
  · intro hpw x hx hxid
    obtain ⟨pre, x₀, post, hl, hpre, hx₀, hres⟩ := first ⟨x, hx, hxid⟩
    rw [hl, List.pairwise_append] at hpw
    obtain ⟨_, hpw₂, _⟩ := hpw
    have hpost : ∀ y ∈ post, y.Stat.QuestionID ≠ q.ID := by
      intro y hy e
      exact (List.pairwise_cons.mp hpw₂).1 y hy (hx₀.trans e.symm)
    have uniq : ∀ y ∈ questions.StatStatusPairs, y.Stat.QuestionID = q.ID → y = x₀ := by
      intro y hy hyid
      rw [hl] at hy
      rcases List.mem_append.mp hy with hy | hy
      · exact absurd hyid (hpre y hy)
      · rcases List.mem_cons.mp hy with e | hy
        · exact e
        · exact absurd hyid (hpost y hy)
    have hxx : x = x₀ := uniq x hx hxid
    subst hxx
    exact ⟨hres, uniq⟩
  · intro net hnet hnone
    simp [Build, hnet, hnone]

theorem buildCode_go_first (pre : List CodeSnippetsRepo) (c : CodeSnippetsRepo)
    (post : List CodeSnippetsRepo) (hpre : ∀ x ∈ pre, x.Lang ≠ "Go".toList)
    (hc : c.Lang = "Go".toList) :
    buildCode.go (pre ++ c :: post) = .ok c.Code := by
  induction pre with
  | nil => simp [buildCode.go, hc]
  | cons y pre ih =>
    have hy := hpre y (by simp)
    simp only [List.cons_append, buildCode.go, if_neg hy]
    exact ih (fun z hz => hpre z (by simp [hz]))

theorem buildCode_go_none (l : List CodeSnippetsRepo) :
    buildCode.go l = .error (Abort.err Error.ErrCannotGetGoSnippets) ↔
      ∀ x ∈ l, x.Lang ≠ "Go".toList := by
  induction l with
  | nil => simp [buildCode.go]
  | cons x l ih =>
    by_cases h : x.Lang = "Go".toList
    · rw [buildCode.go, if_pos h]
      constructor
      · intro e; cases e
      · intro hall; exact absurd h (hall x (by simp))
    · rw [buildCode.go, if_neg h, ih]
      constructor
      · intro hall y hy
        rcases List.mem_cons.mp hy with e | hy
        · subst e; exact h
        · exact hall y hy
      · intro hall y hy
        exact hall y (List.mem_cons_of_mem _ hy)

/-- C7, as stated, fails: with two snippets of language `Go`, `buildCode` does not fail, it
returns the code of the first. -/
theorem buildCode_two_matches_counterexample :
    (twoGoSnippets.filter (fun c => c.Lang = "Go".toList)).length = 2 ∧
      buildCode (questionFileOf 1 "two-sum".toList [] twoGoSnippets) = .ok "A".toList ∧
      buildCode (questionFileOf 1 "two-sum".toList [] twoGoSnippets)
        ≠ .error (Abort.err Error.ErrCannotGetGoSnippets) := by
  decide

/-- C7, amended: `buildCode` fails with `ErrCannotGetGoSnippets` exactly when no snippet has
`Lang` equal to `"Go"`; otherwise it returns the code of the first snippet, in list order, whose
`Lang` is `"Go"`, which is the matching snippet when exactly one matches. -/
theorem buildCode_first_match (f : QuestionFile) (detail : QuestionDetailRepo)
    (hf : f.Question.Detail = some detail) :
    (buildCode f = .error (Abort.err Error.ErrCannotGetGoSnippets) ↔
        ∀ x ∈ detail.CodeSnippets, x.Lang ≠ "Go".toList) ∧
    (∀ pre c post, detail.CodeSnippets = pre ++ c :: post →
        (∀ x ∈ pre, x.Lang ≠ "Go".toList) → c.Lang = "Go".toList →
        buildCode f = .ok c.Code) ∧
    (∀ c, detail.CodeSnippets.filter (fun x => x.Lang = "Go".toList) = [c] →
        buildCode f = .ok c.Code) := by
  have hb : buildCode f = buildCode.go detail.CodeSnippets := by simp [buildCode, hf]
  have hfirst : ∀ pre c post, detail.CodeSnippets = pre ++ c :: post →
      (∀ x ∈ pre, x.Lang ≠ "Go".toList) → c.Lang = "Go".toList →
      buildCode f = .ok c.Code := by
    intro pre c post hl hpre hc
    rw [hb, hl]
    exact buildCode_go_first pre c post hpre hc
  refine ⟨by rw [hb]; exact buildCode_go_none _, hfirst, ?_⟩
  intro c hc
  have hmem : c ∈ detail.CodeSnippets.filter (fun x => x.Lang = "Go".toList) := by
    rw [hc]
    exact List.mem_singleton.mpr rfl
  obtain ⟨hcin, hcl⟩ := List.mem_filter.mp hmem
  obtain ⟨pre, c₀, post, hl, hpre, hc₀⟩ :=
    exists_first_match (fun x : CodeSnippetsRepo => x.Lang = "Go".toList) _
      ⟨c, hcin, by simpa using hcl⟩
  have hc₀mem : c₀ ∈ detail.CodeSnippets.filter (fun x => x.Lang = "Go".toList) := by
    rw [List.mem_filter]
    exact ⟨by simp [hl], by simpa using hc₀⟩
  rw [hc] at hc₀mem
  have e : c₀ = c := by simpa using hc₀mem
  subst e
  exact hfirst pre c₀ post hl hpre hc₀

/-- C7 at the snippets of the specification's scenario, with another language in front. -/
theorem buildCode_first_match_witness :
    buildCode (questionFileOf 1 "two-sum".toList []
        [{ Lang := "C++".toList, LangSlug := "cpp".toList, Code := "int f();".toList,
           Typename := [] },
         { Lang := "Go".toList, LangSlug := "golang".toList, Code := "func twoSum()".toList,
           Typename := [] }])
      = .ok "func twoSum()".toList :=
  (buildCode_first_match _ _ rfl).2.2
    { Lang := "Go".toList, LangSlug := "golang".toList, Code := "func twoSum()".toList,
      Typename := [] } (by decide)

/-- C8: `getPackageName` returns `s`, then the decimal rendering of the id, then `_`, then the
slug with every hyphen replaced by an underscore and every other character kept. -/
theorem getPackageName_format (f : QuestionFile) :
    getPackageName f =
      's' :: decimal f.Question.ID ++
        '_' :: f.Question.Slug.map (fun c => if c = '-' then '_' else c) := by
  unfold getPackageName
  have h : ReplaceAll f.Question.Slug "-".toList "_".toList
      = f.Question.Slug.map (fun c => if c = '-' then '_' else c) := by
    have : ReplaceAll f.Question.Slug "-".toList "_".toList
        = replaceFrom ['-'] ['_'] 0 f.Question.Slug := by
      simp [ReplaceAll]
    rw [this, replaceFrom_single]
  simp only [h, fmtInteger_eq_decimal]
  simp

/-- C8 at the example of the specification, id 1 and slug `two-sum` give `s1_two_sum`, and at
a longer and at a negative id. -/
theorem getPackageName_two_sum :
    getPackageName (questionFileOf 1 "two-sum".toList [] []) = "s1_two_sum".toList ∧
      getPackageName (questionFileOf 2306 "naming-a-company".toList [] [])
        = "s2306_naming_a_company".toList ∧
      getPackageName (questionFileOf (-45) "a-b".toList [] []) = "s-45_a_b".toList ∧
      's' :: decimal 2306 ++
          '_' :: "naming-a-company".toList.map (fun c => if c = '-' then '_' else c)
        = "s2306_naming_a_company".toList :=
  ⟨by decide, by decide, by decide,
    (getPackageName_format (questionFileOf 2306 "naming-a-company".toList [] [])).symm.trans
      (by decide)⟩

/-! ## Rendering, stub injection and file creation -/

/-- C9, as stated, fails: with the starter code `__PACKAGE_NAME__` in the template `__CODE__`,
`Create` renders the package name, because it substitutes the code token before the package-name
token, while the order of the claim leaves the token in place. -/
theorem renderFile_order_counterexample :
    renderFile "__CODE__".toList [] [] "__PACKAGE_NAME__".toList "s1_two_sum".toList
        = "s1_two_sum".toList ∧
      renderSpecOrder "__CODE__".toList [] [] "__PACKAGE_NAME__".toList "s1_two_sum".toList
        = "__PACKAGE_NAME__".toList ∧
      renderFile "__CODE__".toList [] [] "__PACKAGE_NAME__".toList "s1_two_sum".toList
        ≠ renderSpecOrder "__CODE__".toList [] [] "__PACKAGE_NAME__".toList
            "s1_two_sum".toList := by
  decide

/-- C9, amended: the text rendered in `Create` is the template after four global literal
substitutions in this order: description token, link token, code token, package-name token; and
this text is what `Create` hands to the stub injection, whose panic on it is the outcome of
`Create`. -/
theorem renderFile_order (questionTemplate desc link code packageName : GoString) :
    renderFile questionTemplate desc link code packageName =
        applyRules
          [(TEMPLATE_QUESTION_DESCRIPTION, desc), (TEMPLATE_QUESTION_LINK, link),
           (TEMPLATE_CODE, code), (TEMPLATE_PACKAGE_NAME, packageName)]
          questionTemplate ∧
      ∀ (σ η : Type) (os : Afero σ η) (syn : GoSyntax) (f : QuestionFile) (fs : σ)
        (detail : QuestionDetailRepo) (a : Abort),
        loadQuestionTemplate os fs = .ok questionTemplate →
        f.Question.Detail = some detail →
        buildCode f = .ok code →
        injectToDo syn
            (applyRules
              [(TEMPLATE_QUESTION_DESCRIPTION, descChain detail.TranslatedContent),
               (TEMPLATE_QUESTION_LINK, questionLink f), (TEMPLATE_CODE, code),
               (TEMPLATE_PACKAGE_NAME, getPackageName f)]
              questionTemplate) = .error a →
        Create os syn f fs = (fs, .error a) := by
  refine ⟨renderFile_applyRules _ _ _ _ _, ?_⟩
  intro σ η os syn f fs detail a hl hf hc hi
  rw [← renderFile_applyRules] at hi
  simp only [Create, hl, buildDesc, hf, hc, hi]

theorem inspectDecls_bodyless (syn : GoSyntax) (e : Expr)
    (hpe : syn.ParseExpr "panic(\"TODO\")".toList = .ok e) (d : FuncDecl)
    (hb : d.Body = none) (decls : List Decl) (hd : Decl.FuncDecl d ∈ decls) :
    inspectDecls syn decls = .error Abort.nilDereference := by
  induction decls with
  | nil => simp at hd
  | cons x decls ih =>
    cases x with
    | FuncDecl d' =>
      cases hbody : d'.Body with
      | none => simp only [inspectDecls, stubFuncDecl, hpe, hbody]
      | some b =>
        have hne : d' ≠ d := by
          intro e'
          rw [e', hb] at hbody
          cases hbody
        have hd' : Decl.FuncDecl d ∈ decls := by
          rcases List.mem_cons.mp hd with e' | h
          · injection e' with e'; exact absurd e'.symm hne
          · exact h
        simp only [inspectDecls, stubFuncDecl, hpe, hbody, ih hd']
    | GenDecl src =>
      have hd' : Decl.FuncDecl d ∈ decls := by
        rcases List.mem_cons.mp hd with e' | h
        · cases e'
        · exact h
      simp [inspectDecls, ih hd']
    | BadDecl =>
      have hd' : Decl.FuncDecl d ∈ decls := by
        rcases List.mem_cons.mp hd with e' | h
        · cases e'
        · exact h
      simp [inspectDecls, ih hd']

/-- When every function declaration has a body, the walk stubs each of them and leaves the
other declarations as they are. -/
theorem inspectDecls_bodies (syn : GoSyntax) (e : Expr)
    (hpe : syn.ParseExpr "panic(\"TODO\")".toList = .ok e) (decls : List Decl)
    (h : ∀ d, Decl.FuncDecl d ∈ decls → d.Body ≠ none) :
    inspectDecls syn decls = .ok (decls.map (Decl.stubbed e)) := by
  induction decls with
  | nil => rfl
  | cons x decls ih =>
    have ih' := ih (fun d hd => h d (List.mem_cons_of_mem _ hd))
    cases x with
    | FuncDecl d' =>
      cases hbody : d'.Body with
      | none => exact absurd hbody (h d' (by simp))
      | some b =>
        simp only [inspectDecls, stubFuncDecl, hpe, hbody, ih', Decl.stubbed, List.map_cons]
    | GenDecl src => simp [inspectDecls, ih', Decl.stubbed]
    | BadDecl => simp [inspectDecls, ih', Decl.stubbed]

/-- On a source in which every function declaration has a body, `injectToDo` prints the tree
in which every function declaration keeps its receiver, name and signature and has the marker
call as its only statement, and every other declaration is as it was. -/
theorem injectToDo_bodies (syn : GoSyntax) (code : GoString) (astFile : File) (e : Expr)
    (hpf : syn.ParseFile code = .ok astFile)
    (hpe : syn.ParseExpr "panic(\"TODO\")".toList = .ok e)
    (h : ∀ d, Decl.FuncDecl d ∈ astFile.Decls → d.Body ≠ none) :
    injectToDo syn code =
      match syn.formatNode { astFile with Decls := astFile.Decls.map (Decl.stubbed e) } with
      | .error err => .error (Abort.panic err)
      | .ok out => .ok out := by
  simp only [injectToDo, hpf, inspectDecls_bodies syn e hpe astFile.Decls h]

/-- C5 fails on the code: for a source that `go/parser` accepts and in which some function
declaration has no body, `injectToDo` does not return, it ends in the runtime panic of a nil
pointer dereference at `expr.Body.List = ...`. -/
theorem injectToDo_bodyless_panics (syn : GoSyntax) (code : GoString) (astFile : File)
    (e : Expr) (hpf : syn.ParseFile code = .ok astFile)
    (hpe : syn.ParseExpr "panic(\"TODO\")".toList = .ok e) (d : FuncDecl)
    (hd : Decl.FuncDecl d ∈ astFile.Decls) (hb : d.Body = none) :
    injectToDo syn code = .error Abort.nilDereference := by
  simp [injectToDo, hpf, inspectDecls_bodyless syn e hpe d hb astFile.Decls hd]

/-- C5 at the source `package p; func f()`. -/
theorem injectToDo_bodyless_panics_witness :
    injectToDo (fixedSyntax bodylessFile) "package p\n\nfunc f()\n".toList
      = .error Abort.nilDereference :=
  injectToDo_bodyless_panics (fixedSyntax bodylessFile) _ bodylessFile _ rfl rfl
    { Recv := [], Name := "f".toList, FuncType := "()".toList, Body := none }
    (by decide) rfl

/-- C6, as stated, fails: on a filesystem without the template file, `Create` of a question
without a Go snippet returns the error of opening the template, not `ErrCannotGetGoSnippets`. -/
theorem Create_missing_snippet_counterexample :
    (∀ c ∈ ([] : List CodeSnippetsRepo), c.Lang ≠ "Go".toList) ∧
      Create memOs (fixedSyntax bodylessFile) (questionFileOf 1 "two-sum".toList [] [])
          { dirs := [], files := [] }
        = ({ dirs := [], files := [] },
            .error (Abort.err (Error.external "file does not exist".toList))) ∧
      (Create memOs (fixedSyntax bodylessFile) (questionFileOf 1 "two-sum".toList [] [])
          { dirs := [], files := [] }).2
        ≠ .error (Abort.err Error.ErrCannotGetGoSnippets) := by
  decide

/-- C6, amended: for a question whose detail has no snippet with `Lang` equal to `"Go"`,
`Create` leaves the filesystem unchanged (no directory, no file) and fails: with
`ErrCannotGetGoSnippets` when the template can be loaded, and with the error of loading the
template otherwise. -/
theorem Create_missing_snippet {σ η : Type} (os : Afero σ η) (syn : GoSyntax)
    (f : QuestionFile) (fs : σ) (detail : QuestionDetailRepo)
    (hf : f.Question.Detail = some detail)
    (h : ∀ c ∈ detail.CodeSnippets, c.Lang ≠ "Go".toList) :
    (Create os syn f fs).1 = fs ∧
      (Create os syn f fs).2 =
        match loadQuestionTemplate os fs with
        | .error err => .error (Abort.err err)
        | .ok _ => .error (Abort.err Error.ErrCannotGetGoSnippets) := by
  have hb : buildCode f = .error (Abort.err Error.ErrCannotGetGoSnippets) := by
    simp only [buildCode, hf]
    exact (buildCode_go_none _).mpr h
  unfold Create
  cases hl : loadQuestionTemplate os fs with
  | error err => simp
  | ok t => simp [buildDesc, hf, hb]

/-- C6 on a filesystem that holds the template: the call fails with `ErrCannotGetGoSnippets`
and the filesystem is as before. -/
theorem Create_missing_snippet_witness :
    Create memOs (fixedSyntax bodylessFile)
        (questionFileOf 1 "two-sum".toList "<p>Given <b>nums</b></p>".toList [])
        { dirs := [], files := [(TEMPLATE_FILE_URL, "package __PACKAGE_NAME__".toList)] }
      = ({ dirs := [], files := [(TEMPLATE_FILE_URL, "package __PACKAGE_NAME__".toList)] },
          .error (Abort.err Error.ErrCannotGetGoSnippets)) :=
  Prod.ext
    (Create_missing_snippet memOs (fixedSyntax bodylessFile)
      (questionFileOf 1 "two-sum".toList "<p>Given <b>nums</b></p>".toList [])
      { dirs := [], files := [(TEMPLATE_FILE_URL, "package __PACKAGE_NAME__".toList)] }
      _ rfl (by decide)).1
    ((Create_missing_snippet memOs (fixedSyntax bodylessFile)
      (questionFileOf 1 "two-sum".toList "<p>Given <b>nums</b></p>".toList [])
      { dirs := [], files := [(TEMPLATE_FILE_URL, "package __PACKAGE_NAME__".toList)] }
      _ rfl (by decide)).2.trans (by decide))

/-- C4, as stated, fails: a description that itself holds the description token is copied into
the content, token included. -/
theorem renderFile_placeholder_counterexample :
    renderFile "// __QUESTION_DESCRIPTION__".toList
        "see __QUESTION_DESCRIPTION__".toList "l".toList "c".toList "p".toList
        = "// see __QUESTION_DESCRIPTION__".toList ∧
      TEMPLATE_QUESTION_DESCRIPTION <:+:
        renderFile "// __QUESTION_DESCRIPTION__".toList
          "see __QUESTION_DESCRIPTION__".toList "l".toList "c".toList "p".toList := by
  decide

/-- C4, amended: for a template made of placeholder tokens and of literal text, when the literal
text and the four values bring in no beginning of a placeholder token (none begins with an
underscore, ends with a double underscore, or holds a double underscore followed by `Q`, `P`
or `C`), and at the substitution of the description, link and code tokens no other placeholder
is directly followed by the token without its two leading underscores, the four substitutions
of `Create` replace every placeholder by its value and the content holds no occurrence of any
of the four placeholder tokens. -/
theorem renderFile_no_placeholder (ps : List TPiece) (desc link code packageName : GoString)
    (hlit : ∀ p ∈ ps, p.Safe) (hdesc : Safe desc) (hlink : Safe link) (hcode : Safe code)
    (hpkg : Safe packageName)
    (hc1 : Clear Placeholder.description ps)
    (hc2 : Clear Placeholder.link (ps.map (TPiece.fill Placeholder.description desc)))
    (hc3 : Clear Placeholder.code
      ((ps.map (TPiece.fill Placeholder.description desc)).map
        (TPiece.fill Placeholder.link link))) :
    renderFile (templateText ps) desc link code packageName
        = filled ps desc link code packageName ∧
      ¬ TEMPLATE_QUESTION_DESCRIPTION <:+:
          renderFile (templateText ps) desc link code packageName ∧
      ¬ TEMPLATE_QUESTION_LINK <:+: renderFile (templateText ps) desc link code packageName ∧
      ¬ TEMPLATE_PACKAGE_NAME <:+: renderFile (templateText ps) desc link code packageName ∧
      ¬ TEMPLATE_CODE <:+: renderFile (templateText ps) desc link code packageName := by
  have hlit' : ∀ u, TPiece.lit u ∈ ps → Safe u := fun u hu => hlit _ hu
  have heq := renderFile_eq_filled ps desc link code packageName hlit' hdesc hlink hcode
    hpkg hc1 hc2 hc3
  have hno : ∀ p ∈ tokenStarts, ¬ p <:+: filled ps desc link code packageName := by
    refine (no_start_flatMap _ ps ?_).1
    intro p hp
    cases p with
    | lit u => exact hlit' u hp
    | hole k =>
      cases k with
      | description => exact hdesc
      | link => exact hlink
      | code => exact hcode
      | packageName => exact hpkg
  have key : ∀ k : Placeholder,
      ¬ k.token <:+: renderFile (templateText ps) desc link code packageName := by
    intro k hin
    rw [heq] at hin
    obtain ⟨p, hp, hpk⟩ := start_infix_token k
    exact hno p hp (hpk.trans hin)
  exact ⟨heq, key Placeholder.description, key Placeholder.link, key Placeholder.packageName,
    key Placeholder.code⟩

/-- C4 on a sample template, with a description and a starter code that hold underscores. -/
theorem renderFile_no_placeholder_witness :
    renderFile (templateText sampleTemplate) "snake_case: Given nums".toList
        "https://leetcode.cn/problems/two-sum".toList
        "// param_1 := obj.Get(key)\nfunc twoSum()".toList "s1_two_sum".toList
      = ("package s1_two_sum\n\n/*\nsnake_case: Given nums\n"
          ++ "https://leetcode.cn/problems/two-sum\n*/\n\n"
          ++ "// param_1 := obj.Get(key)\nfunc twoSum()\n").toList ∧
      ¬ TEMPLATE_QUESTION_DESCRIPTION <:+:
        renderFile (templateText sampleTemplate) "snake_case: Given nums".toList
          "https://leetcode.cn/problems/two-sum".toList
          "// param_1 := obj.Get(key)\nfunc twoSum()".toList "s1_two_sum".toList ∧
      ¬ TEMPLATE_QUESTION_LINK <:+:
        renderFile (templateText sampleTemplate) "snake_case: Given nums".toList
          "https://leetcode.cn/problems/two-sum".toList
          "// param_1 := obj.Get(key)\nfunc twoSum()".toList "s1_two_sum".toList ∧
      ¬ TEMPLATE_PACKAGE_NAME <:+:
        renderFile (templateText sampleTemplate) "snake_case: Given nums".toList
          "https://leetcode.cn/problems/two-sum".toList
          "// param_1 := obj.Get(key)\nfunc twoSum()".toList "s1_two_sum".toList ∧
      ¬ TEMPLATE_CODE <:+:
        renderFile (templateText sampleTemplate) "snake_case: Given nums".toList
          "https://leetcode.cn/problems/two-sum".toList
          "// param_1 := obj.Get(key)\nfunc twoSum()".toList "s1_two_sum".toList :=
  have h := renderFile_no_placeholder sampleTemplate "snake_case: Given nums".toList
    "https://leetcode.cn/problems/two-sum".toList
    "// param_1 := obj.Get(key)\nfunc twoSum()".toList "s1_two_sum".toList
    (by decide) (by decide) (by decide) (by decide) (by decide) (by decide) (by decide)
    (by decide)
  ⟨h.1.trans (by decide), h.2⟩

end GoLeetcode
